import Mathlib

/-!
# BRKGA for the 0/1 knapsack problem (`brkga_knapsack.cpp`)

A shallow embedding of the decoder, the population manager and the evolution
engine of `brkga_knapsack.cpp`, followed by the properties proved about them.

Modelling conventions:

* a C++ `int` is an `Int`; the result of every `int` addition is reduced to the
  32-bit two's complement range by `wrap32`;
* a `double` key is a rational number: only the order of the keys and the
  identity of the genes matter for the properties below;
* the global generator `rng` is the stream of the outcomes in `[0, 1)` of the
  draws still to come; every function that draws takes the stream and returns
  the rest of it;
* an out-of-bounds index and a draw from an empty integer range have no defined
  behaviour in C++: the functions return `none` there;
* `std::sort` with the fitness comparator is not determined by its contract
  (individuals of equal fitness may come out in any order), so the population
  sort is a parameter `FitnessSort` that carries exactly that contract.
-/

namespace Brkga

/-! ## Data model -/

/-- The value held by a 32-bit `int` after an arithmetic result `x`. -/
def wrap32 (x : Int) : Int := (x + 2147483648) % 4294967296 - 2147483648

/-- The range of the values of a C++ `int`. -/
def InInt32 (x : Int) : Prop := -2147483648 ≤ x ∧ x ≤ 2147483647

instance (x : Int) : Decidable (InInt32 x) := by
  unfold InInt32; infer_instance

/-- The `struct Item` of the source. -/
structure Item where
  weight : Int
  value : Int
  value_per_weight : ℚ
deriving DecidableEq

/-- A gene is the `pair<double, int>` of a key and an item index. -/
abbrev Gene := ℚ × Int

/-- The `typedef vector<pair<double, int>> Chromosome`. -/
abbrev Chromosome := List Gene

/-- An element of `population`: a chromosome and its fitness. -/
abbrev Individual := Chromosome × Int

/-- The `vector<pair<Chromosome, int>> population`. -/
abbrev Population := List Individual

/-- The globals `N`, `C` and `items` that `read_input` fills. `N` is a natural
number: `read_input` resizes `items` to `N`, which a negative `N` does not
survive. -/
structure Instance where
  N : Nat
  C : Int
  items : List Item

/-- The item that `read_input` stores for a line `id weight value`; the density
is the exact quotient. -/
def read_item (weight value : Int) : Item :=
  { weight := weight, value := value, value_per_weight := (value : ℚ) / (weight : ℚ) }

/-! ## Decoder -/

/-- The local variables of `decode_chromosome` together with the buffer it fills. -/
structure DecodeState where
  solution : List Bool
  total_weight : Int
  total_value : Int
deriving DecidableEq

/-- One iteration of the loop of `decode_chromosome` for the gene `c`. -/
def decode_step (inst : Instance) (s : DecodeState) (c : Gene) : Option DecodeState :=
  let idx := c.2
  if 0 ≤ idx then
    match inst.items[idx.toNat]? with
    | none => none
    | some it =>
      if wrap32 (s.total_weight + it.weight) ≤ inst.C then
        if idx.toNat < s.solution.length then
          some { solution := s.solution.set idx.toNat true
                 total_weight := wrap32 (s.total_weight + it.weight)
                 total_value := wrap32 (s.total_value + it.value) }
        else none
      else some s
  else none

/-- The loop `for (const auto &c : chromosome)` of `decode_chromosome`. -/
def decode_loop (inst : Instance) : DecodeState → Chromosome → Option DecodeState
  | s, [] => some s
  | s, c :: cs =>
    match decode_step inst s c with
    | none => none
    | some s' => decode_loop inst s' cs

/-- The state with which the loop of `decode_chromosome` starts. -/
def decode_init (inst : Instance) : DecodeState :=
  { solution := List.replicate inst.N false, total_weight := 0, total_value := 0 }

/-- The function `decode_chromosome`: the buffer `solution` that is passed in is
overwritten by `assign(N, false)`; the result is the filled buffer and the
returned `total_value`. -/
def decode_chromosome (inst : Instance) (chromosome : Chromosome) (_solution : List Bool) :
    Option (List Bool × Int) :=
  (decode_loop inst (decode_init inst) chromosome).map fun s => (s.solution, s.total_value)

/-- The sum of the weights of the items flagged in a selection. -/
def selected_weight : List Item → List Bool → Int
  | it :: items, b :: sol => (if b then it.weight else 0) + selected_weight items sol
  | _, _ => 0

/-- The sum of the values of the items flagged in a selection. -/
def selected_value : List Item → List Bool → Int
  | it :: items, b :: sol => (if b then it.value else 0) + selected_value items sol
  | _, _ => 0

/-- Every gene of the chromosome names an item of the instance. -/
def ValidIndices (inst : Instance) (chromosome : Chromosome) : Prop :=
  ∀ c ∈ chromosome, 0 ≤ c.2 ∧ c.2 < inst.N

/-- The item indices of a chromosome, front to back. -/
def indices (chromosome : Chromosome) : List Int := chromosome.map Prod.snd

/-- The loop invariant of the decoder when no `int` addition can overflow:
`total_weight` is the weight of the flagged items and stays within the
capacity, and `total_value` is their value as an `int`. -/
def DecodeInv (inst : Instance) (s : DecodeState) : Prop :=
  s.solution.length = inst.N ∧
    s.total_weight = selected_weight inst.items s.solution ∧
    0 ≤ s.total_weight ∧ s.total_weight ≤ inst.C ∧
    s.total_value = wrap32 (selected_value inst.items s.solution)

/-! ## Random draws -/

/-- The state of the generator `rng`: the outcomes of the draws still to come. -/
abbrev Rng := Nat → ℚ

/-- One draw: an outcome in `[0, 1)` and the state of the generator after it. -/
def next_unit (g : Rng) : ℚ × Rng := (Int.fract (g 0), fun n => g (n + 1))

/-- The distribution `dist(0.001, 0.999)` applied to `rng`. -/
def dist (g : Rng) : ℚ × Rng := (1 / 1000 + (next_unit g).1 * (998 / 1000), (next_unit g).2)

/-- The distribution `mutation_prob(0.0, 1.0)` applied to `rng`. -/
def mutation_prob (g : Rng) : ℚ × Rng := next_unit g

/-- A `uniform_int_distribution<int>(a, b)` applied to `rng`; the range `[a, b]`
must not be empty. -/
def uniform_int_distribution (a b : Int) (g : Rng) : Option (Int × Rng) :=
  if a ≤ b then some (a + ⌊(next_unit g).1 * ((b - a + 1 : Int) : ℚ)⌋, (next_unit g).2)
  else none

/-! ## Parameters -/

/-- The compile-time parameters of the algorithm. -/
structure Params where
  P : Nat
  pe : ℚ
  pm : ℚ
  rhoe : ℚ

/-- Population size. -/
def P : Nat := 100

/-- Elite share. -/
def pe : ℚ := 3 / 10

/-- Mutant share. -/
def pm : ℚ := 1 / 5

/-- Probability of inheriting the key of the elite parent. -/
def rhoe : ℚ := 7 / 10

/-- Number of generations. -/
def G : Nat := 200

/-- The parameters as the source fixes them. -/
def source_params : Params := { P := P, pe := pe, pm := pm, rhoe := rhoe }

/-- The conversion `static_cast<int>` of a real: truncation towards zero. -/
def static_cast_int (q : ℚ) : Int := if 0 ≤ q then ⌊q⌋ else ⌈q⌉

/-- The local `elite_size` of `evolve_population`. -/
def elite_size (prm : Params) : Int := static_cast_int ((prm.P : ℚ) * prm.pe)

/-- The local `mutant_size` of `evolve_population`. -/
def mutant_size (prm : Params) : Int := static_cast_int ((prm.P : ℚ) * prm.pm)

/-- The local `crossover_size` of `evolve_population`. -/
def crossover_size (prm : Params) : Int := (prm.P : Int) - elite_size prm - mutant_size prm

/-! ## Sorting -/

/-- The `operator<` of `pair<double, int>`. -/
def pair_lt (a b : Gene) : Prop := a.1 < b.1 ∨ (¬ b.1 < a.1 ∧ a.2 < b.2)

instance (a b : Gene) : Decidable (pair_lt a b) := by
  unfold pair_lt; infer_instance

/-- The call `sort(chromosome.rbegin(), chromosome.rend())`: the genes arranged so
that no gene is smaller than a later one. The order of pairs is total, so this
arrangement is unique and any sorting algorithm computes it. -/
def sort_descending (chromosome : Chromosome) : Chromosome :=
  chromosome.insertionSort fun a b => ¬ pair_lt a b

/-- The call `sort(population.begin(), population.end(), cmp)` with
`cmp(a, b) = a.second > b.second`, by its contract: the result is a
rearrangement of the population in which no individual is followed by one that
the comparator puts before it. -/
structure FitnessSort where
  sort : Population → Population
  perm : ∀ pop, (sort pop).Perm pop
  sorted : ∀ pop, (sort pop).Pairwise fun a b => ¬ b.2 > a.2

/-- An implementation of the population sort: insertion sort. -/
def insertion_fitness_sort : FitnessSort where
  sort := fun pop => pop.insertionSort fun a b => a.2 ≥ b.2
  perm := fun pop => List.perm_insertionSort _ pop
  sorted := fun pop => by
    haveI : IsTotal Individual (fun a b => a.2 ≥ b.2) := ⟨fun a b => le_total b.2 a.2⟩
    haveI : IsTrans Individual (fun a b => a.2 ≥ b.2) := ⟨fun _ _ _ h₁ h₂ => le_trans h₂ h₁⟩
    have h := List.sorted_insertionSort (fun a b : Individual => a.2 ≥ b.2) pop
    exact List.Pairwise.imp (fun {a b} hab => not_lt.mpr hab) h

/-! ## Population manager -/

/-- The loop `for (int j = 0; j < N; ++j)` that appends one gene per item. -/
def fill_genes (inst : Instance) : List Nat → Chromosome → Rng → Option (Chromosome × Rng)
  | [], chromosome, g => some (chromosome, g)
  | j :: js, chromosome, g =>
    match inst.items[j]? with
    | none => none
    | some it =>
      fill_genes inst js (chromosome ++ [((dist g).1 * it.value_per_weight, (j : Int))]) (dist g).2

/-- A fresh chromosome: `N` random keys scaled by the densities, then sorted. -/
def random_chromosome (inst : Instance) (g : Rng) : Option (Chromosome × Rng) :=
  match fill_genes inst (List.range inst.N) [] g with
  | none => none
  | some (chromosome, g') => some (sort_descending chromosome, g')

/-- A loop that appends `n` fresh individuals of fitness 0 to a population. -/
def append_random (inst : Instance) : Nat → Population → Rng → Option (Population × Rng)
  | 0, pop, g => some (pop, g)
  | n + 1, pop, g =>
    match random_chromosome inst g with
    | none => none
    | some (chromosome, g') => append_random inst n (pop ++ [(chromosome, 0)]) g'

/-- The function `generate_population`: the old population is cleared. -/
def generate_population (prm : Params) (inst : Instance) (_population : Population) (g : Rng) :
    Option (Population × Rng) :=
  append_random inst prm.P [] g

/-- The first loop of `evaluate_population`: every fitness is recomputed. -/
def evaluate_all (inst : Instance) : Population → Option Population
  | [] => some []
  | individual :: rest =>
    match decode_chromosome inst individual.1 [] with
    | none => none
    | some r =>
      match evaluate_all inst rest with
      | none => none
      | some rest' => some ((individual.1, r.2) :: rest')

/-- The function `evaluate_population`. -/
def evaluate_population (srt : FitnessSort) (inst : Instance) (population : Population) :
    Option Population :=
  match evaluate_all inst population with
  | none => none
  | some pop => some (srt.sort pop)

/-! ## Evolution engine -/

/-- The assignment `offspring[i].first = key`. -/
def set_key (offspring : Chromosome) (i : Nat) (key : ℚ) : Chromosome :=
  offspring.modify (fun c => (key, c.2)) i

/-- The loop of `crossover` over the positions from the cut point on. -/
def crossover_loop (prm : Params) (elite non_elite : Chromosome) :
    List Nat → Chromosome → Rng → Option (Chromosome × Rng)
  | [], offspring, g => some (offspring, g)
  | i :: is, offspring, g =>
    if (dist g).1 < prm.rhoe then
      match elite[i]? with
      | none => none
      | some e => crossover_loop prm elite non_elite is (set_key offspring i e.1) (dist g).2
    else
      match non_elite[i]? with
      | none => none
      | some e => crossover_loop prm elite non_elite is (set_key offspring i e.1) (dist g).2

/-- The function `crossover`. -/
def crossover (prm : Params) (inst : Instance) (elite non_elite : Chromosome) (g : Rng) :
    Option (Chromosome × Rng) :=
  match uniform_int_distribution 1 ((inst.N : Int) - 1) g with
  | none => none
  | some (cut, g₁) =>
    match crossover_loop prm elite non_elite
        (List.range' cut.toNat (elite.length - cut.toNat)) elite g₁ with
    | none => none
    | some (offspring, g₂) => some (sort_descending offspring, g₂)

/-- The loop of `mutate` over the genes. -/
def mutate_loop (inst : Instance) : Chromosome → Rng → Option (Chromosome × Rng)
  | [], g => some ([], g)
  | c :: cs, g =>
    if (mutation_prob g).1 < 1 / 20 then
      if 0 ≤ c.2 then
        match inst.items[c.2.toNat]? with
        | none => none
        | some it =>
          match mutate_loop inst cs (dist (mutation_prob g).2).2 with
          | none => none
          | some (cs', g') =>
            some (((dist (mutation_prob g).2).1 * it.value_per_weight, c.2) :: cs', g')
      else none
    else
      match mutate_loop inst cs (mutation_prob g).2 with
      | none => none
      | some (cs', g') => some (c :: cs', g')

/-- The function `mutate`. -/
def mutate (inst : Instance) (chromosome : Chromosome) (g : Rng) : Option (Chromosome × Rng) :=
  match mutate_loop inst chromosome g with
  | none => none
  | some (chromosome', g') => some (sort_descending chromosome', g')

/-- The loop of `evolve_population` that appends the crossover offspring; the
parents are taken from the previous `population`. -/
def append_offspring (prm : Params) (inst : Instance) (population : Population) :
    Nat → Population → Rng → Option (Population × Rng)
  | 0, new_population, g => some (new_population, g)
  | n + 1, new_population, g =>
    match uniform_int_distribution 0 (elite_size prm - 1) g with
    | none => none
    | some (elite_idx, g₁) =>
      match uniform_int_distribution (elite_size prm) ((prm.P : Int) - 1) g₁ with
      | none => none
      | some (normal_idx, g₂) =>
        if 0 ≤ elite_idx ∧ 0 ≤ normal_idx then
          match population[elite_idx.toNat]?, population[normal_idx.toNat]? with
          | some e, some ne =>
            match crossover prm inst e.1 ne.1 g₂ with
            | none => none
            | some (offspring, g₃) =>
              match mutate inst offspring g₃ with
              | none => none
              | some (offspring', g₄) =>
                append_offspring prm inst population n (new_population ++ [(offspring', 0)]) g₄
          | _, _ => none
        else none

/-- The function `evolve_population`. -/
def evolve_population (srt : FitnessSort) (prm : Params) (inst : Instance)
    (population : Population) (g : Rng) : Option (Population × Rng) :=
  if 0 ≤ elite_size prm ∧ elite_size prm ≤ population.length then
    match append_random inst (mutant_size prm).toNat
        (population.take (elite_size prm).toNat) g with
    | none => none
    | some (with_mutants, g₁) =>
      match append_offspring prm inst population (crossover_size prm).toNat with_mutants g₁ with
      | none => none
      | some (new_population, g₂) =>
        match evaluate_population srt inst new_population with
        | none => none
        | some population' => some (population', g₂)
  else none

/-- The population of `main` after `generate_population`, `evaluate_population`
and `k` calls of `evolve_population`. -/
def run_generations (srt : FitnessSort) (prm : Params) (inst : Instance) :
    Nat → Rng → Option (Population × Rng)
  | 0, g =>
    match generate_population prm inst [] g with
    | none => none
    | some (pop, g') =>
      match evaluate_population srt inst pop with
      | none => none
      | some pop' => some (pop', g')
  | k + 1, g =>
    match run_generations srt prm inst k g with
    | none => none
    | some (pop, g') => evolve_population srt prm inst pop g'

/-! ## Predicates of the statements -/

/-- The keys of a chromosome are non-increasing from front to back. -/
def KeysSorted (chromosome : Chromosome) : Prop := chromosome.Pairwise fun a b => a.1 ≥ b.1

instance (chromosome : Chromosome) : Decidable (KeysSorted chromosome) := by
  unfold KeysSorted; infer_instance

/-- The chromosome has exactly `N` genes and holds each item index `0..N-1` exactly once. -/
def WellFormed (inst : Instance) (chromosome : Chromosome) : Prop :=
  chromosome.length = inst.N ∧ ∀ j : Nat, j < inst.N → (indices chromosome).count (j : Int) = 1

instance (inst : Instance) (chromosome : Chromosome) : Decidable (WellFormed inst chromosome) := by
  unfold WellFormed; infer_instance

/-- The population is non-increasing in fitness. -/
def FitnessSorted (population : Population) : Prop := population.Pairwise fun a b => a.2 ≥ b.2

instance (population : Population) : Decidable (FitnessSorted population) := by
  unfold FitnessSorted; infer_instance

/-- The item indices `0, 1, ..., N-1`. -/
def item_indices (inst : Instance) : List Int := (List.range inst.N).map Int.ofNat

/-! ## Concrete data for the examples -/

/-- The instance of the scenario: `N = 3`, `C = 10`, items `(5, 10)`, `(4, 40)`, `(6, 30)`. -/
def scenario_instance : Instance :=
  { N := 3, C := 10, items := [read_item 5 10, read_item 4 40, read_item 6 30] }

/-- A chromosome of the scenario instance: item 1, then item 2, then item 0. -/
def scenario_chromosome : Chromosome := [(9, 1), (4, 2), (1, 0)]

/-- An instance at the upper end of `int`: capacity `2147483647`, one item that
fills it and one item of weight `1`. -/
def overflow_weight_instance : Instance :=
  { N := 2, C := 2147483647, items := [read_item 2147483647 1, read_item 1 1] }

/-- An instance whose two items are both worth `2^30`. -/
def overflow_value_instance : Instance :=
  { N := 2, C := 2, items := [read_item 1 1073741824, read_item 1 1073741824] }

/-- A chromosome over two items, in the order item 0, item 1. -/
def two_item_chromosome : Chromosome := [(2, 0), (1, 1)]

/-- An instance with capacity 0 and positive weights. -/
def zero_capacity_instance : Instance :=
  { N := 3, C := 0, items := [read_item 5 10, read_item 4 40, read_item 6 30] }

/-- A stream of draws for the examples. -/
def example_rng : Rng := fun n => (n : ℚ) * 37 / 100

/-- Small parameters for the examples: 4 individuals, 2 elite, 1 mutant, 1 offspring. -/
def small_params : Params := { P := 4, pe := 1 / 2, pm := 1 / 4, rhoe := 7 / 10 }

/-- A population of the scenario instance: four well-formed chromosomes. -/
def small_population : Population :=
  [([(9, 1), (4, 2), (1, 0)], 70), ([(8, 2), (3, 1), (2, 0)], 70),
   ([(7, 0), (6, 1), (5, 2)], 50), ([(5, 0), (4, 2), (3, 1)], 10)]

/-- A validated instance with a single item. -/
def single_item_instance : Instance := { N := 1, C := 10, items := [read_item 5 10] }

/-! ## Further notions and data of the statements -/

/-- The generator after `k` further draws. -/
def skip_draws (g : Rng) (k : Nat) : Rng := fun n => g (n + k)

/-- The key `(u < rhoe) ? elite[i].first : non_elite[i].first` that position `i`
of the offspring receives for the draw `u`. -/
def inherited_key (prm : Params) (elite non_elite : Chromosome) (u : ℚ) (i : Nat) : Option ℚ :=
  if u < prm.rhoe then (elite[i]?).map Prod.fst else (non_elite[i]?).map Prod.fst

/-- A stream in which every draw is 0.9. -/
def high_rng : Rng := fun _ => 9 / 10

/-- A second well-formed chromosome of the scenario instance. -/
def second_parent : Chromosome := [(8, 2), (3, 0), (2, 1)]

/-- The population `small_population` after `evaluate_population`. -/
def evaluated_population : Population :=
  [([(9, 1), (4, 2), (1, 0)], 70), ([(8, 2), (3, 1), (2, 0)], 70),
   ([(7, 0), (6, 1), (5, 2)], 50), ([(5, 0), (4, 2), (3, 1)], 50)]

/-- The state of `rng` when the loop of `mutate` over `chromosome`, started with
the state `g`, reaches the gene at position `i` (for `i` past the last gene:
when the loop ends). Every gene takes one draw of `mutation_prob`, and one draw
of `dist` more when that draw is below 0.05. -/
def mutate_stream (g : Rng) : Chromosome → Nat → Rng
  | [], _ => g
  | _ :: _, 0 => g
  | _ :: cs, i + 1 =>
    mutate_stream (if (mutation_prob g).1 < 1 / 20 then (dist (mutation_prob g).2).2
      else (mutation_prob g).2) cs i

/-- What one iteration of the loop of `mutate` makes of the gene `a`, in terms of
the mutation draw `m` and the value `u` that `dist` gives next: the item index
is kept; for `m < 0.05` the key becomes `u * density` of the gene's own item,
otherwise the key is kept. -/
def MutatedGene (inst : Instance) (m u : ℚ) (a b : Gene) : Prop :=
  b.2 = a.2 ∧
    if m < 1 / 20 then
      0 ≤ a.2 ∧ ∃ it : Item, inst.items[a.2.toNat]? = some it ∧ b.1 = u * it.value_per_weight
    else b.1 = a.1

/-- A stream whose `n`-th draw is `n / 100`: the first draws are below 0.05. -/
def low_rng : Rng := fun n => (n : ℚ) / 100

/-- The call `v.assign(n, x)` of `vector<bool>`, as the library does it: when `n`
exceeds the size every element is overwritten by `x` and `n - size` copies of
`x` are appended; otherwise the vector is cut to `n` elements and every element
is overwritten by `x`. -/
def vector_assign (n : Nat) (x : Bool) (v : List Bool) : List Bool :=
  if n > v.length then v.map (fun _ => x) ++ List.replicate (n - v.length) x
  else (v.take n).map fun _ => x

/-- The memory that a call `decode_chromosome(chromosome, solution)` can reach:
the globals `N`, `C` and `items`, the chromosome behind the const reference,
the buffer behind the reference `solution`, and the two locals. -/
structure DecodeMemory where
  globals : Instance
  chromosome : Chromosome
  solution : List Bool
  total_weight : Int
  total_value : Int

/-- The statements of `decode_chromosome` before the loop, on the memory of the
caller: `solution.assign(N, false)` and the initialisation of the locals. -/
def decode_enter (globals : Instance) (chromosome : Chromosome) (solution : List Bool) :
    DecodeMemory :=
  { globals := globals, chromosome := chromosome,
    solution := vector_assign globals.N false solution,
    total_weight := 0, total_value := 0 }

/-- The body of the loop of `decode_chromosome` for the gene `c`, on the memory. -/
def decode_body (m : DecodeMemory) (c : Gene) : Option DecodeMemory :=
  let idx := c.2
  if 0 ≤ idx then
    match m.globals.items[idx.toNat]? with
    | none => none
    | some it =>
      if wrap32 (m.total_weight + it.weight) ≤ m.globals.C then
        if idx.toNat < m.solution.length then
          some { m with solution := m.solution.set idx.toNat true
                        total_weight := wrap32 (m.total_weight + it.weight)
                        total_value := wrap32 (m.total_value + it.value) }
        else none
      else some m
  else none

/-- The loop `for (const auto &c : chromosome)` on the memory: `n` iterations from
position `i` on, each reading its gene from the chromosome as the memory holds
it at that moment. -/
def decode_iterate : Nat → Nat → DecodeMemory → Option DecodeMemory
  | 0, _, m => some m
  | n + 1, i, m =>
    match m.chromosome[i]? with
    | none => none
    | some c =>
      match decode_body m c with
      | none => none
      | some m' => decode_iterate n (i + 1) m'

/-- A call of `decode_chromosome` on the memory of the caller: the memory when the
function returns; the value returned is its `total_value`. -/
def decode_call (globals : Instance) (chromosome : Chromosome) (solution : List Bool) :
    Option DecodeMemory :=
  decode_iterate chromosome.length 0 (decode_enter globals chromosome solution)

/-! ## The library sort of the population

`evaluate_population` calls `std::sort` of the C++ standard library. The
definitions below follow the implementation of that call in libstdc++
(`bits/stl_algo.h` and `bits/stl_heap.h`): introsort, that is quicksort with a
median-of-three pivot down to ranges of 16 elements, heapsort when the depth
limit is used up, and a final insertion sort. Iterators are positions of the
vector; reading or writing outside the vector, which is undefined in C++, gives
`none`. -/

/-- The assignment `*(v.begin() + i) = x`. -/
def assign_at {α : Type} (v : List α) (i : Nat) (x : α) : Option (List α) :=
  if i < v.length then some (v.set i x) else none

/-- The call `std::iter_swap(a, b)`. -/
def iter_swap {α : Type} (v : List α) (a b : Nat) : Option (List α) :=
  match v[a]?, v[b]? with
  | some x, some y => (assign_at v a y).bind fun v₁ => assign_at v₁ b x
  | _, _ => none

/-- The function `__move_median_to_first(result, a, b, c, comp)`: swaps the median of
the three elements to `result`. -/
def move_median_to_first {α : Type} (comp : α → α → Bool) (v : List α) (result a b c : Nat) :
    Option (List α) :=
  match v[a]?, v[b]?, v[c]? with
  | some x, some y, some z =>
    if comp x y then
      if comp y z then iter_swap v result b
      else if comp x z then iter_swap v result c
      else iter_swap v result a
    else if comp x z then iter_swap v result a
    else if comp y z then iter_swap v result c
    else iter_swap v result b
  | _, _, _ => none

/-- The loop `while (comp(first, pivot)) ++first;` of `__unguarded_partition`; the
first argument bounds the number of steps by the length of the vector, beyond
which the loop has left the vector. -/
def partition_scan_up {α : Type} (comp : α → α → Bool) (v : List α) (pivot : Nat) :
    Nat → Nat → Option Nat
  | 0, _ => none
  | fuel + 1, first =>
    match v[first]?, v[pivot]? with
    | some x, some p =>
      if comp x p then partition_scan_up comp v pivot fuel (first + 1) else some first
    | _, _ => none

/-- The loop `while (comp(pivot, last)) --last;` of `__unguarded_partition`. -/
def partition_scan_down {α : Type} (comp : α → α → Bool) (v : List α) (pivot : Nat) :
    Nat → Option Nat
  | 0 =>
    match v[pivot]?, v[0]? with
    | some p, some y => if comp p y then none else some 0
    | _, _ => none
  | last + 1 =>
    match v[pivot]?, v[last + 1]? with
    | some p, some y => if comp p y then partition_scan_down comp v pivot last else some (last + 1)
    | _, _ => none

/-- The function `__unguarded_partition(first, last, pivot, comp)`; returns the cut
and the vector. The first argument bounds the number of rounds of the outer
loop, each of which advances `first`. -/
def unguarded_partition {α : Type} (comp : α → α → Bool) :
    Nat → List α → Nat → Nat → Nat → Option (Nat × List α)
  | 0, _, _, _, _ => none
  | fuel + 1, v, first, last, pivot =>
    match partition_scan_up comp v pivot (v.length + 1) first with
    | none => none
    | some first₁ =>
      if last = 0 then none
      else
        match partition_scan_down comp v pivot (last - 1) with
        | none => none
        | some last₁ =>
          if ¬ first₁ < last₁ then some (first₁, v)
          else
            match iter_swap v first₁ last₁ with
            | none => none
            | some v₁ => unguarded_partition comp fuel v₁ (first₁ + 1) last₁ pivot

/-- The function `__unguarded_partition_pivot(first, last, comp)`. -/
def unguarded_partition_pivot {α : Type} (comp : α → α → Bool) (v : List α) (first last : Nat) :
    Option (Nat × List α) :=
  if last = 0 then none
  else
    match move_median_to_first comp v first (first + 1) (first + (last - first) / 2) (last - 1) with
    | none => none
    | some v₁ => unguarded_partition comp (v₁.length + 1) v₁ (first + 1) last first

/-- The function `__push_heap(first, holeIndex, topIndex, value, comp)`; the first
argument bounds the number of steps, each of which halves the hole index. -/
def push_heap {α : Type} (comp : α → α → Bool) (first topIndex : Nat) (value : α) :
    Nat → List α → Nat → Option (List α)
  | 0, _, _ => none
  | fuel + 1, v, holeIndex =>
    if holeIndex > topIndex then
      match v[first + (holeIndex - 1) / 2]? with
      | none => none
      | some p =>
        if comp p value then
          match assign_at v (first + holeIndex) p with
          | none => none
          | some v₁ => push_heap comp first topIndex value fuel v₁ ((holeIndex - 1) / 2)
        else assign_at v (first + holeIndex) value
    else assign_at v (first + holeIndex) value

/-- The loop `while (secondChild < (len - 1) / 2)` of `__adjust_heap`; returns the
vector, the hole index and the second child. -/
def adjust_heap_loop {α : Type} (comp : α → α → Bool) (first len : Nat) :
    Nat → List α → Nat → Nat → Option (List α × Nat × Nat)
  | 0, _, _, _ => none
  | fuel + 1, v, holeIndex, secondChild =>
    if secondChild < (len - 1) / 2 then
      match v[first + 2 * (secondChild + 1)]?, v[first + (2 * (secondChild + 1) - 1)]? with
      | some x, some y =>
        if comp x y then
          match assign_at v (first + holeIndex) y with
          | none => none
          | some v₁ =>
            adjust_heap_loop comp first len fuel v₁ (2 * (secondChild + 1) - 1)
              (2 * (secondChild + 1) - 1)
        else
          match assign_at v (first + holeIndex) x with
          | none => none
          | some v₁ =>
            adjust_heap_loop comp first len fuel v₁ (2 * (secondChild + 1)) (2 * (secondChild + 1))
      | _, _ => none
    else some (v, holeIndex, secondChild)

/-- The function `__adjust_heap(first, holeIndex, len, value, comp)`. The lengths are
signed in C++, where `(len - 2) / 2` is negative for `len = 0` and equals no
child index; hence the test `2 ≤ len`. -/
def adjust_heap {α : Type} (comp : α → α → Bool) (v : List α) (first holeIndex len : Nat)
    (value : α) :
    Option (List α) :=
  match adjust_heap_loop comp first len (len + 1) v holeIndex holeIndex with
  | none => none
  | some (v₁, holeIndex₁, secondChild) =>
    if len % 2 = 0 ∧ 2 ≤ len ∧ secondChild = (len - 2) / 2 then
      match v₁[first + (2 * (secondChild + 1) - 1)]? with
      | none => none
      | some y =>
        match assign_at v₁ (first + holeIndex₁) y with
        | none => none
        | some v₂ =>
          push_heap comp first holeIndex value (len + 1) v₂ (2 * (secondChild + 1) - 1)
    else push_heap comp first holeIndex value (len + 1) v₁ holeIndex₁

/-- The function `__pop_heap(first, last, result, comp)`. -/
def pop_heap {α : Type} (comp : α → α → Bool) (v : List α) (first last result : Nat) :
    Option (List α) :=
  match v[result]?, v[first]? with
  | some value, some top =>
    match assign_at v result top with
    | none => none
    | some v₁ => adjust_heap comp v₁ first 0 (last - first) value
  | _, _ => none

/-- The loop of `__make_heap` from `parent` down to 0. -/
def make_heap_loop {α : Type} (comp : α → α → Bool) (first len : Nat) :
    Nat → List α → Option (List α)
  | 0, v =>
    match v[first]? with
    | none => none
    | some value => adjust_heap comp v first 0 len value
  | parent + 1, v =>
    match v[first + (parent + 1)]? with
    | none => none
    | some value =>
      match adjust_heap comp v first (parent + 1) len value with
      | none => none
      | some v₁ => make_heap_loop comp first len parent v₁

/-- The function `__make_heap(first, last, comp)`. -/
def make_heap {α : Type} (comp : α → α → Bool) (v : List α) (first last : Nat) : Option (List α) :=
  if last - first < 2 then some v
  else make_heap_loop comp first (last - first) ((last - first - 2) / 2) v

/-- The function `__sort_heap(first, last, comp)`; the first argument bounds the
number of rounds, each of which lowers `last`. -/
def sort_heap {α : Type} (comp : α → α → Bool) (first : Nat) : Nat → List α → Nat → Option (List α)
  | 0, _, _ => none
  | fuel + 1, v, last =>
    if last - first > 1 then
      match pop_heap comp v first (last - 1) (last - 1) with
      | none => none
      | some v₁ => sort_heap comp first fuel v₁ (last - 1)
    else some v

/-- The loop `for (i = middle; i < last; ++i)` of `__heap_select`. -/
def heap_select_loop {α : Type} (comp : α → α → Bool) (first middle last : Nat) :
    Nat → List α → Nat → Option (List α)
  | 0, _, _ => none
  | fuel + 1, v, i =>
    if i < last then
      match v[i]?, v[first]? with
      | some x, some y =>
        if comp x y then
          match pop_heap comp v first middle i with
          | none => none
          | some v₁ => heap_select_loop comp first middle last fuel v₁ (i + 1)
        else heap_select_loop comp first middle last fuel v (i + 1)
      | _, _ => none
    else some v

/-- The function `__heap_select(first, middle, last, comp)`. -/
def heap_select {α : Type} (comp : α → α → Bool) (v : List α) (first middle last : Nat) :
    Option (List α) :=
  match make_heap comp v first middle with
  | none => none
  | some v₁ => heap_select_loop comp first middle last (last - middle + 1) v₁ middle

/-- The function `__partial_sort(first, middle, last, comp)`. -/
def partial_sort {α : Type} (comp : α → α → Bool) (v : List α) (first middle last : Nat) :
    Option (List α) :=
  match heap_select comp v first middle last with
  | none => none
  | some v₁ => sort_heap comp first (middle - first + 1) v₁ middle

/-- The function `__introsort_loop(first, last, depth_limit, comp)`: each round of the
loop lowers the depth limit, partitions, sorts the upper part by a recursive
call and goes on with the lower part. -/
def introsort_loop {α : Type} (comp : α → α → Bool) : Nat → List α → Nat → Nat → Option (List α)
  | 0, v, first, last =>
    if last - first > 16 then partial_sort comp v first last last else some v
  | depth_limit + 1, v, first, last =>
    if last - first > 16 then
      match unguarded_partition_pivot comp v first last with
      | none => none
      | some (cut, v₁) =>
        match introsort_loop comp depth_limit v₁ cut last with
        | none => none
        | some v₂ => introsort_loop comp depth_limit v₂ first cut
    else some v

/-- The function `__unguarded_linear_insert(last, comp)` for the value `val` taken
out of the position `last`. -/
def unguarded_linear_insert_loop {α : Type} (comp : α → α → Bool) (val : α) :
    List α → Nat → Option (List α)
  | _, 0 => none
  | v, next + 1 =>
    match v[next]? with
    | none => none
    | some y =>
      if comp val y then
        match assign_at v (next + 1) y with
        | none => none
        | some v₁ => unguarded_linear_insert_loop comp val v₁ next
      else assign_at v (next + 1) val

/-- The function `__unguarded_linear_insert(last, comp)`. -/
def unguarded_linear_insert {α : Type} (comp : α → α → Bool) (v : List α) (last : Nat) :
    Option (List α) :=
  match v[last]? with
  | none => none
  | some val => unguarded_linear_insert_loop comp val v last

/-- The call `std::move_backward(first, last, d_last)` for `n = last - first`
elements, from the last one down. -/
def move_backward {α : Type} : Nat → List α → Nat → Nat → Option (List α)
  | 0, v, _, _ => some v
  | _ + 1, _, 0, _ => none
  | _ + 1, _, _ + 1, 0 => none
  | n + 1, v, last + 1, d_last + 1 =>
    match v[last]? with
    | none => none
    | some x =>
      match assign_at v d_last x with
      | none => none
      | some v₁ => move_backward n v₁ last d_last

/-- The loop `for (i = first + 1; i != last; ++i)` of `__insertion_sort`, with the
number of elements still to insert. -/
def insertion_sort_loop {α : Type} (comp : α → α → Bool) (first : Nat) :
    Nat → List α → Nat → Option (List α)
  | 0, v, _ => some v
  | n + 1, v, i =>
    match v[i]?, v[first]? with
    | some val, some y =>
      if comp val y then
        match move_backward (i - first) v i (i + 1) with
        | none => none
        | some v₁ =>
          match assign_at v₁ first val with
          | none => none
          | some v₂ => insertion_sort_loop comp first n v₂ (i + 1)
      else
        match unguarded_linear_insert comp v i with
        | none => none
        | some v₁ => insertion_sort_loop comp first n v₁ (i + 1)
    | _, _ => none

/-- The function `__insertion_sort(first, last, comp)`. -/
def insertion_sort {α : Type} (comp : α → α → Bool) (v : List α) (first last : Nat) :
    Option (List α) :=
  if first = last then some v
  else if last < first then none
  else insertion_sort_loop comp first (last - (first + 1)) v (first + 1)

/-- The function `__unguarded_insertion_sort(first, last, comp)`, with the number of
elements still to insert. -/
def unguarded_insertion_sort {α : Type} (comp : α → α → Bool) : Nat → List α → Nat → Option (List α)
  | 0, v, _ => some v
  | n + 1, v, i =>
    match unguarded_linear_insert comp v i with
    | none => none
    | some v₁ => unguarded_insertion_sort comp n v₁ (i + 1)

/-- The function `__final_insertion_sort(first, last, comp)`. -/
def final_insertion_sort {α : Type} (comp : α → α → Bool) (v : List α) (first last : Nat) :
    Option (List α) :=
  if last - first > 16 then
    match insertion_sort comp v first (first + 16) with
    | none => none
    | some v₁ => unguarded_insertion_sort comp (last - (first + 16)) v₁ (first + 16)
  else insertion_sort comp v first last

/-- The function `std::__lg(n)`: the position of the highest set bit of a positive
64-bit number. -/
def lg (n : Nat) : Nat :=
  ((List.range 63).filter fun k => 2 ^ (k + 1) ≤ n).length

/-- The function `std::__sort(first, last, comp)`. -/
def sort_range {α : Type} (comp : α → α → Bool) (v : List α) (first last : Nat) : Option (List α) :=
  if first ≠ last then
    match introsort_loop comp (lg (last - first) * 2) v first last with
    | none => none
    | some v₁ => final_insertion_sort comp v₁ first last
  else some v

/-- The call `std::sort(v.begin(), v.end(), comp)`. -/
def std_sort {α : Type} (comp : α → α → Bool) (v : List α) : Option (List α) :=
  sort_range comp v 0 v.length

/-- The call `std::partial_sort(v.begin(), v.end(), v.end(), comp)`, which is the
heapsort that `__introsort_loop` falls back on. -/
def std_partial_sort {α : Type} (comp : α → α → Bool) (v : List α) : Option (List α) :=
  partial_sort comp v 0 v.length v.length

/-- The comparator that `evaluate_population` passes to `std::sort`:
`a.second > b.second`. -/
def fitness_comp (a b : Individual) : Bool := decide (a.2 > b.2)

/-- The population sort as libstdc++ performs it: the result of `std_sort` with the
comparator of `evaluate_population`, checked to be a rearrangement of the
population in non-increasing order of fitness. A result that failed the check,
or an undefined run, would be replaced by the insertion sort; the statements
below give the result of `std_sort` itself next to the result of this sort. -/
def libstdcxx_sort (pop : Population) : Population :=
  match std_sort fitness_comp pop with
  | some r =>
    if r.Perm pop ∧ r.Pairwise (fun a b => ¬ b.2 > a.2) then r
    else insertion_fitness_sort.sort pop
  | none => insertion_fitness_sort.sort pop

/-- The population sort of libstdc++ as an implementation of the contract. -/
def libstdcxx_fitness_sort : FitnessSort where
  sort := libstdcxx_sort
  perm := fun pop => by
    unfold libstdcxx_sort
    split
    · split
      · rename_i h; exact h.1
      · exact insertion_fitness_sort.perm pop
    · exact insertion_fitness_sort.perm pop
  sorted := fun pop => by
    unfold libstdcxx_sort
    split
    · split
      · rename_i h; exact h.2
      · exact insertion_fitness_sort.sorted pop
    · exact insertion_fitness_sort.sorted pop

/-- A well-formed chromosome of the scenario instance with the first key
`5 + i / 100`; it packs the items 1 and 2 and decodes to the value 70. -/
def tied_individual (i : Nat) (fitness : Int) : Individual :=
  ([(5 + (i : ℚ) / 100, 1), (4, 2), (1, 0)], fitness)

/-- A population of the program's size `P = 100` whose individuals all decode to
the value 70; the individual at position `i` has the first key `5 + i / 100`. -/
def tied_population : Population := (List.range 100).map fun i => tied_individual i 0

/-- The population `tied_population` after the evaluation loop, before the sort. -/
def tied_evaluated : Population := (List.range 100).map fun i => tied_individual i 70

/-- The input positions of the individuals of `tied_population` in the order in
which `std::sort` leaves them. -/
def tied_order : List Nat :=
  [62, 74, 73, 72, 71, 70, 69, 68, 67, 66, 65, 64, 63, 75, 61, 60, 59, 58, 57, 56, 55, 54, 53, 52,
   51, 87, 99, 98, 97, 96, 95, 94, 93, 92, 91, 90, 89, 88, 50, 86, 85, 84, 83, 82, 81, 80, 79, 78,
   77, 76, 12, 24, 23, 22, 21, 20, 19, 18, 17, 16, 15, 14, 13, 25, 11, 10, 9, 8, 7, 6, 5, 4, 3, 2,
   1, 37, 49, 48, 47, 46, 45, 44, 43, 42, 41, 40, 39, 38, 0, 36, 35, 34, 33, 32, 31, 30, 29, 28,
   27, 26]

/-! ## Properties of the decoder -/

theorem wrap32_eq_self {x : Int} (h : InInt32 x) : wrap32 x = x := by
  unfold InInt32 at h; unfold wrap32; omega

theorem wrap32_wrap32_add (a b : Int) : wrap32 (wrap32 a + b) = wrap32 (a + b) := by
  unfold wrap32; omega

theorem selected_weight_set (items : List Item) (sol : List Bool) (i : Nat) (it : Item)
    (hit : items[i]? = some it) (hsol : sol[i]? = some false) :
    selected_weight items (sol.set i true) = selected_weight items sol + it.weight := by
  induction items generalizing sol i with
  | nil => simp at hit
  | cons a items ih =>
    cases sol with
    | nil => simp at hsol
    | cons b sol =>
      cases i with
      | zero =>
        simp at hit hsol
        subst hit; subst hsol
        simp [selected_weight]; ring
      | succ i =>
        simp at hit hsol
        simp [selected_weight, ih sol i hit hsol]; ring

theorem selected_value_set (items : List Item) (sol : List Bool) (i : Nat) (it : Item)
    (hit : items[i]? = some it) (hsol : sol[i]? = some false) :
    selected_value items (sol.set i true) = selected_value items sol + it.value := by
  induction items generalizing sol i with
  | nil => simp at hit
  | cons a items ih =>
    cases sol with
    | nil => simp at hsol
    | cons b sol =>
      cases i with
      | zero =>
        simp at hit hsol
        subst hit; subst hsol
        simp [selected_value]; ring
      | succ i =>
        simp at hit hsol
        simp [selected_value, ih sol i hit hsol]; ring

theorem selected_value_bounds (items : List Item) (sol : List Bool)
    (hv : ∀ it ∈ items, 0 ≤ it.value) :
    0 ≤ selected_value items sol ∧ selected_value items sol ≤ (items.map Item.value).sum := by
  induction items generalizing sol with
  | nil => simp [selected_value]
  | cons a items ih =>
    cases sol with
    | nil =>
      simp only [selected_value, List.map_cons, List.sum_cons]
      have h0 := hv a (by simp)
      have h1 := (ih [] (fun it h => hv it (by simp [h]))).2
      have h2 := (ih [] (fun it h => hv it (by simp [h]))).1
      constructor <;> omega
    | cons b sol =>
      have h0 := hv a (by simp)
      have h1 := ih sol (fun it h => hv it (by simp [h]))
      simp only [selected_value, List.map_cons, List.sum_cons]
      split <;> constructor <;> omega

/-- What one iteration does when the index is in range: the outcome of the
capacity test decides between flagging the item and leaving the state as it is. -/
theorem decode_step_eq (inst : Instance) (s : DecodeState) (c : Gene) (it : Item)
    (h0 : 0 ≤ c.2) (hit : inst.items[c.2.toNat]? = some it)
    (hlen : c.2.toNat < s.solution.length) :
    decode_step inst s c =
      if wrap32 (s.total_weight + it.weight) ≤ inst.C then
        some { solution := s.solution.set c.2.toNat true
               total_weight := wrap32 (s.total_weight + it.weight)
               total_value := wrap32 (s.total_value + it.value) }
      else some s := by
  simp [decode_step, h0, hit, hlen]

theorem decode_loop_append (inst : Instance) (s : DecodeState) (l₁ l₂ : Chromosome) :
    decode_loop inst s (l₁ ++ l₂) =
      (decode_loop inst s l₁).bind fun s' => decode_loop inst s' l₂ := by
  induction l₁ generalizing s with
  | nil => simp [decode_loop]
  | cons c l₁ ih =>
    simp only [List.cons_append, decode_loop]
    cases decode_step inst s c with
    | none => simp
    | some s' => simpa using ih s'

/-- The loop never changes the length of the buffer, and it leaves alone the flag
of every item whose index does not occur in the genes it runs over. -/
theorem decode_loop_frame (inst : Instance) (l : Chromosome) (s s' : DecodeState)
    (h : decode_loop inst s l = some s') :
    s'.solution.length = s.solution.length ∧
      ∀ i : Nat, (i : Int) ∉ indices l → s'.solution[i]? = s.solution[i]? := by
  induction l generalizing s with
  | nil =>
    simp [decode_loop] at h
    subst h; simp
  | cons c l ih =>
    simp only [decode_loop] at h
    cases hstep : decode_step inst s c with
    | none => simp [hstep] at h
    | some s1 =>
      rw [hstep] at h
      obtain ⟨hl, hfr⟩ := ih s1 h
      have key : s1.solution.length = s.solution.length ∧
          ∀ i : Nat, (i : Int) ≠ c.2 → s1.solution[i]? = s.solution[i]? := by
        unfold decode_step at hstep
        simp only at hstep
        split at hstep
        · split at hstep
          · simp at hstep
          · split at hstep
            · split at hstep
              · simp at hstep
                subst hstep
                refine ⟨by simp, fun i hi => ?_⟩
                simp only
                rw [List.getElem?_set_ne]
                intro hc
                apply hi
                omega
              · simp at hstep
            · simp at hstep
              subst hstep; simp
        · simp at hstep
      refine ⟨by omega, fun i hi => ?_⟩
      simp only [indices, List.map_cons, List.mem_cons, not_or] at hi
      rw [hfr i (by simpa [indices] using hi.2), key.2 i hi.1]

/-- With valid item indices the loop of the decoder runs to its end. -/
theorem decode_loop_total (inst : Instance) (hlen : inst.N ≤ inst.items.length)
    (l : Chromosome) (s : DecodeState) (hs : s.solution.length = inst.N)
    (hvalid : ValidIndices inst l) :
    ∃ s', decode_loop inst s l = some s' ∧ s'.solution.length = inst.N := by
  induction l generalizing s with
  | nil => exact ⟨s, rfl, hs⟩
  | cons c l ih =>
    have hc := hvalid c (by simp)
    have hi : c.2.toNat < inst.items.length := by omega
    have hstep := decode_step_eq inst s c inst.items[c.2.toNat] hc.1
      (List.getElem?_eq_getElem hi) (by omega)
    have hrest : ValidIndices inst l := fun c' h' => hvalid c' (by simp [h'])
    simp only [decode_loop]
    split at hstep
    · rw [hstep]
      exact ih _ (by simpa using hs) hrest
    · rw [hstep]
      exact ih _ hs hrest

theorem decode_loop_inv (inst : Instance) (hlen : inst.items.length = inst.N)
    (hw : ∀ it ∈ inst.items, 0 ≤ it.weight ∧ inst.C + it.weight ≤ 2147483647)
    (l : Chromosome) (s : DecodeState) (hs : DecodeInv inst s)
    (hvalid : ValidIndices inst l) (hnodup : (indices l).Nodup)
    (hfresh : ∀ c ∈ l, s.solution[c.2.toNat]? = some false) :
    ∃ s', decode_loop inst s l = some s' ∧ DecodeInv inst s' := by
  induction l generalizing s with
  | nil => exact ⟨s, rfl, hs⟩
  | cons c l ih =>
    obtain ⟨hsl, htw, htw0, htwC, htv⟩ := hs
    have hc := hvalid c (by simp)
    have hi : c.2.toNat < inst.items.length := by omega
    have hit : inst.items[c.2.toNat]? = some inst.items[c.2.toNat] :=
      List.getElem?_eq_getElem hi
    have hstep := decode_step_eq inst s c inst.items[c.2.toNat] hc.1 hit (by omega)
    have hrest : ValidIndices inst l := fun c' h' => hvalid c' (by simp [h'])
    simp only [indices, List.map_cons, List.nodup_cons] at hnodup
    have hwc := hw inst.items[c.2.toNat] (List.getElem_mem _)
    simp only [decode_loop]
    split at hstep
    · rw [hstep]
      rename_i htest
      have hno : wrap32 (s.total_weight + inst.items[c.2.toNat].weight) =
          s.total_weight + inst.items[c.2.toNat].weight :=
        wrap32_eq_self ⟨by omega, by omega⟩
      rw [hno] at htest
      refine ih _ ⟨by simpa using hsl, ?_, ?_, ?_, ?_⟩ hrest hnodup.2 ?_
      · simp only [hno]
        rw [selected_weight_set _ _ _ _ hit (hfresh c (by simp)), htw]
      · simp only [hno]; omega
      · simp only [hno]; omega
      · simp only
        rw [selected_value_set _ _ _ _ hit (hfresh c (by simp)), htv, wrap32_wrap32_add]
      · intro c' hc'
        have hne : c'.2 ≠ c.2 := by
          intro heq
          exact hnodup.1 (by rw [← heq]; exact List.mem_map_of_mem _ hc')
        have hc'v := hvalid c' (by simp [hc'])
        simp only
        rw [List.getElem?_set_ne (by omega)]
        exact hfresh c' (by simp [hc'])
    · rw [hstep]
      exact ih s ⟨hsl, htw, htw0, htwC, htv⟩ hrest hnodup.2
        (fun c' hc' => hfresh c' (by simp [hc']))

theorem decode_init_inv (inst : Instance) (hC : 0 ≤ inst.C) : DecodeInv inst (decode_init inst) := by
  have hz : ∀ (items : List Item) (n : Nat),
      selected_weight items (List.replicate n false) = 0 ∧
      selected_value items (List.replicate n false) = 0 := by
    intro items
    induction items with
    | nil => intro n; cases n <;> simp [selected_weight, selected_value]
    | cons a items ih =>
      intro n
      cases n with
      | zero => simp [selected_weight, selected_value]
      | succ n => simp [List.replicate_succ, selected_weight, selected_value, ih n]
  refine ⟨by simp [decode_init], ?_, ?_, ?_, ?_⟩
  · simp [decode_init, (hz inst.items inst.N).1]
  · simp [decode_init]
  · simpa [decode_init] using hC
  · simp [decode_init, (hz inst.items inst.N).2, wrap32]

theorem decode_init_fresh (inst : Instance) (l : Chromosome) (hvalid : ValidIndices inst l) :
    ∀ c ∈ l, (decode_init inst).solution[c.2.toNat]? = some false := by
  intro c hc
  have := hvalid c hc
  simp only [decode_init, List.getElem?_replicate]
  rw [if_pos (by omega)]

/-- C1 (as amended). With positive weights, a capacity `C ≥ 0`, no weight so
large that `C + weight` leaves the range of `int`, and a chromosome whose item
indices are valid and pairwise distinct, `decode_chromosome` returns a
selection of `N` flags whose selected weights sum to at most `C`. -/
theorem decode_chromosome_feasible (inst : Instance) (chromosome : Chromosome)
    (solution : List Bool) (hlen : inst.items.length = inst.N) (hC : 0 ≤ inst.C)
    (hw : ∀ it ∈ inst.items, 0 < it.weight ∧ inst.C + it.weight ≤ 2147483647)
    (hvalid : ValidIndices inst chromosome) (hnodup : (indices chromosome).Nodup) :
    ∃ sol tv, decode_chromosome inst chromosome solution = some (sol, tv) ∧
      sol.length = inst.N ∧ selected_weight inst.items sol ≤ inst.C := by
  obtain ⟨s', hrun, hinv⟩ := decode_loop_inv inst hlen
    (fun it h => ⟨le_of_lt (hw it h).1, (hw it h).2⟩) chromosome (decode_init inst)
    (decode_init_inv inst hC) hvalid hnodup (decode_init_fresh inst chromosome hvalid)
  refine ⟨s'.solution, s'.total_value, by simp [decode_chromosome, hrun], hinv.1, ?_⟩
  rw [← hinv.2.1]
  exact hinv.2.2.2.1

/-- C2 (as amended). When no `int` addition can overflow (weights and values are
non-negative, `C + weight` and the sum of all values stay within `int`), and
the item indices of the chromosome are valid and pairwise distinct, the
returned `total_value` is the sum of the values of the flagged items, and the
item of a gene is flagged exactly when, at the moment the pass reached that
gene, the weight accumulated so far plus its weight did not exceed `C`. -/
theorem decode_chromosome_value (inst : Instance) (chromosome : Chromosome)
    (solution : List Bool) (hlen : inst.items.length = inst.N) (hC : 0 ≤ inst.C)
    (hw : ∀ it ∈ inst.items, 0 ≤ it.weight ∧ inst.C + it.weight ≤ 2147483647)
    (hv : ∀ it ∈ inst.items, 0 ≤ it.value)
    (hsum : (inst.items.map Item.value).sum ≤ 2147483647)
    (hvalid : ValidIndices inst chromosome) (hnodup : (indices chromosome).Nodup) :
    ∃ sol tv, decode_chromosome inst chromosome solution = some (sol, tv) ∧
      tv = selected_value inst.items sol ∧
      ∀ pre c post, chromosome = pre ++ c :: post →
        ∃ s it, decode_loop inst (decode_init inst) pre = some s ∧
          s.total_weight = selected_weight inst.items s.solution ∧
          inst.items[c.2.toNat]? = some it ∧
          (sol[c.2.toNat]? = some true ↔ s.total_weight + it.weight ≤ inst.C) := by
  obtain ⟨s', hrun, hinv⟩ := decode_loop_inv inst hlen hw chromosome (decode_init inst)
    (decode_init_inv inst hC) hvalid hnodup (decode_init_fresh inst chromosome hvalid)
  refine ⟨s'.solution, s'.total_value, by simp [decode_chromosome, hrun], ?_, ?_⟩
  · rw [hinv.2.2.2.2]
    have hb := selected_value_bounds inst.items s'.solution hv
    exact wrap32_eq_self ⟨by omega, by omega⟩
  · intro pre c post hsplit
    subst hsplit
    have hvpre : ValidIndices inst pre := fun c' h' => hvalid c' (by simp [h'])
    have hc := hvalid c (by simp)
    simp only [indices, List.map_append, List.map_cons] at hnodup
    have hnd := List.nodup_append.mp hnodup
    have hndc := List.nodup_cons.mp hnd.2.1
    obtain ⟨s, hpre, hsinv⟩ := decode_loop_inv inst hlen hw pre (decode_init inst)
      (decode_init_inv inst hC) hvpre hnd.1 (decode_init_fresh inst pre hvpre)
    obtain ⟨hsl, htw, htw0, htwC, -⟩ := hsinv
    have hi : c.2.toNat < inst.items.length := by omega
    have hit : inst.items[c.2.toNat]? = some inst.items[c.2.toNat] :=
      List.getElem?_eq_getElem hi
    refine ⟨s, inst.items[c.2.toNat], hpre, htw, hit, ?_⟩
    have hwc := hw inst.items[c.2.toNat] (List.getElem_mem _)
    have hno : wrap32 (s.total_weight + inst.items[c.2.toNat].weight) =
        s.total_weight + inst.items[c.2.toNat].weight :=
      wrap32_eq_self ⟨by omega, by omega⟩
    -- the flag of `c` before its own iteration
    have hcpre : (c.2.toNat : Int) ∉ indices pre := by
      have : (c.2.toNat : Int) = c.2 := Int.toNat_of_nonneg hc.1
      rw [this]
      intro hmem
      exact hnd.2.2 hmem (by simp)
    have hbefore : s.solution[c.2.toNat]? = some false := by
      rw [(decode_loop_frame inst pre _ s hpre).2 _ hcpre]
      exact decode_init_fresh inst [c] (fun c' h' => hvalid c' (by simp at h'; simp [h'])) c
        (by simp)
    -- the rest of the pass
    rw [decode_loop_append, hpre] at hrun
    simp only [Option.some_bind, decode_loop] at hrun
    have hstep := decode_step_eq inst s c inst.items[c.2.toNat] hc.1 hit (by omega)
    rw [hno] at hstep
    have hcpost : (c.2.toNat : Int) ∉ indices post := by
      have : (c.2.toNat : Int) = c.2 := Int.toNat_of_nonneg hc.1
      rw [this]
      exact hndc.1
    split at hstep
    · rename_i htest
      rw [hstep] at hrun
      simp only at hrun
      rw [(decode_loop_frame inst post _ s' hrun).2 _ hcpost]
      simp only
      rw [List.getElem?_set_self (by omega)]
      simp [htest]
    · rename_i htest
      rw [hstep] at hrun
      simp only at hrun
      rw [(decode_loop_frame inst post _ s' hrun).2 _ hcpost, hbefore]
      simp [htest]

/-- C1 (witness). The amended feasibility statement at the scenario instance. -/
theorem decode_chromosome_feasible_witness :
    ∃ sol tv, decode_chromosome scenario_instance scenario_chromosome [] = some (sol, tv) ∧
      sol.length = scenario_instance.N ∧
      selected_weight scenario_instance.items sol ≤ scenario_instance.C :=
  decode_chromosome_feasible scenario_instance scenario_chromosome [] (by decide) (by decide)
    (by decide) (by unfold ValidIndices; decide) (by decide)

/-- C1 (counterexample). With capacity `2147483647` and the weights `2147483647`
and `1`, the second test `total_weight + 1 <= C` overflows: both items are
selected and the selected weights sum to `2147483648 > C`. -/
theorem decode_chromosome_infeasible_at_int_max :
    decode_chromosome overflow_weight_instance two_item_chromosome [] = some ([true, true], 2) ∧
      (∀ it ∈ overflow_weight_instance.items, 0 < it.weight) ∧
      0 ≤ overflow_weight_instance.C ∧
      ValidIndices overflow_weight_instance two_item_chromosome ∧
      (indices two_item_chromosome).Nodup ∧
      ¬ selected_weight overflow_weight_instance.items [true, true] ≤
        overflow_weight_instance.C := by
  refine ⟨by decide, by decide, by decide, by unfold ValidIndices; decide, by decide, by decide⟩

/-- C2 (witness). The amended value statement at the scenario instance. -/
theorem decode_chromosome_value_witness :
    ∃ sol tv, decode_chromosome scenario_instance scenario_chromosome [] = some (sol, tv) ∧
      tv = selected_value scenario_instance.items sol ∧
      ∀ pre c post, scenario_chromosome = pre ++ c :: post →
        ∃ s it, decode_loop scenario_instance (decode_init scenario_instance) pre = some s ∧
          s.total_weight = selected_weight scenario_instance.items s.solution ∧
          scenario_instance.items[c.2.toNat]? = some it ∧
          (sol[c.2.toNat]? = some true ↔ s.total_weight + it.weight ≤ scenario_instance.C) :=
  decode_chromosome_value scenario_instance scenario_chromosome [] (by decide) (by decide)
    (by decide) (by decide) (by decide) (by unfold ValidIndices; decide) (by decide)

/-- C2 (counterexample). Two items worth `2^30` each are both selected; their
values sum to `2^31`, which no `int` holds: the returned `total_value` is
`-2147483648`. -/
theorem decode_chromosome_value_overflow :
    decode_chromosome overflow_value_instance two_item_chromosome [] =
        some ([true, true], -2147483648) ∧
      ValidIndices overflow_value_instance two_item_chromosome ∧
      (indices two_item_chromosome).Nodup ∧
      selected_value overflow_value_instance.items [true, true] = 2147483648 := by
  refine ⟨by decide, by unfold ValidIndices; decide, by decide, by decide⟩

/-- C3. For the scenario instance and any chromosome that lists item 1, then
item 2, then item 0 (whatever the keys and the buffer passed in),
`decode_chromosome` returns `total_value` 70 and the selection in which
exactly the items 1 and 2 are flagged. -/
theorem decode_chromosome_scenario (k₁ k₂ k₀ : ℚ) (solution : List Bool) :
    decode_chromosome scenario_instance [(k₁, 1), (k₂, 2), (k₀, 0)] solution =
      some ([false, true, true], 70) := by
  rfl

/-- C4. If every item is heavier than the capacity (weights being `int` values)
and the item indices of the chromosome are valid, `decode_chromosome` returns
`total_value` 0 and the selection of length `N` with no item flagged, whatever
the order of the genes. -/
theorem decode_chromosome_degenerate (inst : Instance) (chromosome : Chromosome)
    (solution : List Bool) (hlen : inst.items.length = inst.N)
    (hint : ∀ it ∈ inst.items, InInt32 it.weight)
    (hheavy : ∀ it ∈ inst.items, inst.C < it.weight)
    (hvalid : ValidIndices inst chromosome) :
    decode_chromosome inst chromosome solution = some (List.replicate inst.N false, 0) := by
  have h : decode_loop inst (decode_init inst) chromosome = some (decode_init inst) := by
    induction chromosome with
    | nil => rfl
    | cons c l ih =>
      have hc := hvalid c (by simp)
      have hi : c.2.toNat < inst.items.length := by omega
      have hstep := decode_step_eq inst (decode_init inst) c inst.items[c.2.toNat] hc.1
        (List.getElem?_eq_getElem hi) (by simp [decode_init]; omega)
      have h1 := hint inst.items[c.2.toNat] (List.getElem_mem _)
      have h2 := hheavy inst.items[c.2.toNat] (List.getElem_mem _)
      have hno : wrap32 ((decode_init inst).total_weight + inst.items[c.2.toNat].weight) =
          inst.items[c.2.toNat].weight := by
        simp only [decode_init, zero_add]
        exact wrap32_eq_self h1
      rw [hno, if_neg (by omega)] at hstep
      simp only [decode_loop, hstep]
      exact ih (fun c' h' => hvalid c' (by simp [h']))
  simp only [decode_chromosome, h]
  rfl

/-- C4 (witness). The degenerate case at an instance with capacity 0, with a buffer that is not empty. -/
theorem decode_chromosome_degenerate_witness :
    decode_chromosome zero_capacity_instance scenario_chromosome [true] =
      some (List.replicate zero_capacity_instance.N false, 0) :=
  decode_chromosome_degenerate zero_capacity_instance scenario_chromosome [true] (by decide)
    (by decide) (by decide) (by unfold ValidIndices; decide)

/-! ## Sorting and well-formed chromosomes -/

theorem not_pair_lt_iff (a b : Gene) :
    ¬ pair_lt a b ↔ b.1 < a.1 ∨ (a.1 = b.1 ∧ b.2 ≤ a.2) := by
  unfold pair_lt
  constructor
  · intro h
    rcases lt_trichotomy a.1 b.1 with h1 | h1 | h1
    · exact absurd (Or.inl h1) h
    · right
      refine ⟨h1, ?_⟩
      by_contra hc
      exact h (Or.inr ⟨by rw [h1]; exact lt_irrefl _, by omega⟩)
    · exact Or.inl h1
  · rintro (h | ⟨h1, h2⟩) hc
    · rcases hc with hc | ⟨hc, _⟩
      · exact lt_asymm h hc
      · exact hc h
    · rcases hc with hc | ⟨_, hc⟩
      · rw [h1] at hc; exact lt_irrefl _ hc
      · omega

theorem not_pair_lt_total (a b : Gene) : ¬ pair_lt a b ∨ ¬ pair_lt b a := by
  rw [not_pair_lt_iff, not_pair_lt_iff]
  rcases lt_trichotomy a.1 b.1 with h | h | h
  · exact Or.inr (Or.inl h)
  · rcases le_total a.2 b.2 with h2 | h2
    · exact Or.inr (Or.inr ⟨h.symm, h2⟩)
    · exact Or.inl (Or.inr ⟨h, h2⟩)
  · exact Or.inl (Or.inl h)

theorem not_pair_lt_trans (a b c : Gene) (hab : ¬ pair_lt a b) (hbc : ¬ pair_lt b c) :
    ¬ pair_lt a c := by
  rw [not_pair_lt_iff] at *
  rcases hab with h | ⟨h1, h2⟩
  · rcases hbc with h' | ⟨h1', _⟩
    · exact Or.inl (lt_trans h' h)
    · exact Or.inl (by rw [← h1']; exact h)
  · rcases hbc with h' | ⟨h1', h2'⟩
    · exact Or.inl (by rw [h1]; exact h')
    · exact Or.inr ⟨h1.trans h1', le_trans h2' h2⟩

theorem sort_descending_perm (chromosome : Chromosome) :
    (sort_descending chromosome).Perm chromosome :=
  List.perm_insertionSort _ chromosome

theorem sort_descending_keys (chromosome : Chromosome) :
    KeysSorted (sort_descending chromosome) := by
  haveI : IsTotal Gene (fun a b => ¬ pair_lt a b) := ⟨not_pair_lt_total⟩
  haveI : IsTrans Gene (fun a b => ¬ pair_lt a b) := ⟨not_pair_lt_trans⟩
  have h := List.sorted_insertionSort (fun a b : Gene => ¬ pair_lt a b) chromosome
  refine List.Pairwise.imp (fun {a b} hab => ?_) h
  rcases (not_pair_lt_iff a b).mp hab with h1 | h1
  · exact le_of_lt h1
  · exact le_of_eq h1.1.symm

theorem indices_perm {c₁ c₂ : Chromosome} (h : c₁.Perm c₂) : (indices c₁).Perm (indices c₂) :=
  h.map _

theorem wellFormed_of_perm (inst : Instance) {c₁ c₂ : Chromosome}
    (h : (indices c₁).Perm (indices c₂)) (hw : WellFormed inst c₂) : WellFormed inst c₁ := by
  refine ⟨?_, fun j hj => ?_⟩
  · have := h.length_eq
    simp only [indices, List.length_map] at this
    rw [this, hw.1]
  · rw [h.count_eq]
    exact hw.2 j hj

theorem item_indices_nodup (inst : Instance) : (item_indices inst).Nodup :=
  (List.nodup_range inst.N).map (fun a b h => by simpa using h)

theorem mem_item_indices (inst : Instance) (x : Int) :
    x ∈ item_indices inst ↔ 0 ≤ x ∧ x < inst.N := by
  simp only [item_indices, List.mem_map, List.mem_range]
  constructor
  · rintro ⟨j, hj, rfl⟩
    simp only [Int.ofNat_eq_coe]
    omega
  · rintro ⟨h0, h1⟩
    exact ⟨x.toNat, by omega, by simp only [Int.ofNat_eq_coe]; omega⟩

theorem wellFormed_iff_perm (inst : Instance) (c : Chromosome) :
    WellFormed inst c ↔ (indices c).Perm (item_indices inst) := by
  constructor
  · rintro ⟨hlen, hcount⟩
    have hsub : item_indices inst ⊆ indices c := by
      intro x hx
      have hx' := (mem_item_indices inst x).mp hx
      have := hcount x.toNat (by omega)
      rw [Int.toNat_of_nonneg hx'.1] at this
      exact List.count_pos_iff.mp (by omega)
    have hsp := List.subperm_of_subset (item_indices_nodup inst) hsub
    exact (hsp.perm_of_length_le (by simp [indices, item_indices, hlen])).symm
  · intro h
    refine ⟨?_, fun j hj => ?_⟩
    · have := h.length_eq
      simpa [indices, item_indices] using this
    · rw [h.count_eq]
      exact List.count_eq_one_of_mem (item_indices_nodup inst)
        ((mem_item_indices inst j).mpr ⟨by omega, by omega⟩)

theorem WellFormed.valid {inst : Instance} {c : Chromosome} (h : WellFormed inst c) :
    ValidIndices inst c := by
  intro g hg
  have hp := (wellFormed_iff_perm inst c).mp h
  have : g.2 ∈ indices c := List.mem_map_of_mem _ hg
  exact (mem_item_indices inst g.2).mp (hp.subset this)

theorem WellFormed.nodup {inst : Instance} {c : Chromosome} (h : WellFormed inst c) :
    (indices c).Nodup :=
  ((wellFormed_iff_perm inst c).mp h).nodup_iff.mpr (item_indices_nodup inst)

/-! ## What the operations on chromosomes preserve -/

theorem indices_set_key (offspring : Chromosome) (i : Nat) (key : ℚ) :
    indices (set_key offspring i key) = indices offspring := by
  unfold set_key indices
  induction offspring generalizing i with
  | nil => simp
  | cons c cs ih =>
    cases i with
    | zero => simp
    | succ i => simpa using ih i

theorem crossover_loop_indices (prm : Params) (elite non_elite : Chromosome) (is : List Nat)
    (offspring : Chromosome) (g : Rng) (r : Chromosome × Rng)
    (h : crossover_loop prm elite non_elite is offspring g = some r) :
    indices r.1 = indices offspring := by
  induction is generalizing offspring g with
  | nil =>
    simp only [crossover_loop, Option.some.injEq] at h
    rw [← h]
  | cons i is ih =>
    simp only [crossover_loop] at h
    split at h
    · split at h
      · exact absurd h (by simp)
      · rw [ih _ _ h, indices_set_key]
    · split at h
      · exact absurd h (by simp)
      · rw [ih _ _ h, indices_set_key]

/-- The offspring of `crossover` holds the item indices of the elite parent, each as
often as the elite parent does, and its keys are in descending order. -/
theorem crossover_spec (prm : Params) (inst : Instance) (elite non_elite : Chromosome)
    (g : Rng) (r : Chromosome × Rng) (h : crossover prm inst elite non_elite g = some r) :
    (indices r.1).Perm (indices elite) ∧ KeysSorted r.1 := by
  unfold crossover at h
  split at h
  · exact absurd h (by simp)
  · split at h
    · exact absurd h (by simp)
    · rename_i cut g₁ _ offspring g₂ hloop
      simp only [Option.some.injEq] at h
      rw [← h]
      refine ⟨?_, sort_descending_keys _⟩
      have := crossover_loop_indices _ _ _ _ _ _ _ hloop
      simp only at this
      rw [← this]
      exact indices_perm (sort_descending_perm _)

theorem mutate_loop_indices (inst : Instance) (chromosome : Chromosome) (g : Rng)
    (r : Chromosome × Rng) (h : mutate_loop inst chromosome g = some r) :
    indices r.1 = indices chromosome := by
  induction chromosome generalizing g r with
  | nil =>
    simp only [mutate_loop, Option.some.injEq] at h
    rw [← h]
  | cons c cs ih =>
    simp only [mutate_loop] at h
    split at h
    · split at h
      · split at h
        · exact absurd h (by simp)
        · split at h
          · exact absurd h (by simp)
          · rename_i cs' g' hrec
            simp only [Option.some.injEq] at h
            rw [← h]
            have := ih _ _ hrec
            simp only [indices, List.map_cons] at this ⊢
            rw [this]
      · exact absurd h (by simp)
    · split at h
      · exact absurd h (by simp)
      · rename_i cs' g' hrec
        simp only [Option.some.injEq] at h
        rw [← h]
        have := ih _ _ hrec
        simp only [indices, List.map_cons] at this ⊢
        rw [this]

/-- The chromosome that `mutate` leaves holds the same item indices as before, and
its keys are in descending order. -/
theorem mutate_spec (inst : Instance) (chromosome : Chromosome) (g : Rng)
    (r : Chromosome × Rng) (h : mutate inst chromosome g = some r) :
    (indices r.1).Perm (indices chromosome) ∧ KeysSorted r.1 := by
  unfold mutate at h
  split at h
  · exact absurd h (by simp)
  · rename_i c' g' hloop
    simp only [Option.some.injEq] at h
    rw [← h]
    refine ⟨?_, sort_descending_keys _⟩
    have := mutate_loop_indices _ _ _ _ hloop
    simp only at this
    rw [← this]
    exact indices_perm (sort_descending_perm _)

theorem fill_genes_indices (inst : Instance) (js : List Nat) (chromosome : Chromosome)
    (g : Rng) (r : Chromosome × Rng) (h : fill_genes inst js chromosome g = some r) :
    indices r.1 = indices chromosome ++ js.map Int.ofNat := by
  induction js generalizing chromosome g with
  | nil =>
    simp only [fill_genes, Option.some.injEq] at h
    rw [← h]; simp
  | cons j js ih =>
    simp only [fill_genes] at h
    split at h
    · exact absurd h (by simp)
    · rw [ih _ _ h]
      simp [indices]

/-- A chromosome built by `random_chromosome` is well formed and its keys are in
descending order. -/
theorem random_chromosome_spec (inst : Instance) (g : Rng) (r : Chromosome × Rng)
    (h : random_chromosome inst g = some r) : WellFormed inst r.1 ∧ KeysSorted r.1 := by
  unfold random_chromosome at h
  split at h
  · exact absurd h (by simp)
  · rename_i c g' hfill
    simp only [Option.some.injEq] at h
    rw [← h]
    refine ⟨?_, sort_descending_keys _⟩
    rw [wellFormed_iff_perm]
    have := fill_genes_indices _ _ _ _ _ hfill
    simp only [indices, List.map_nil, List.nil_append] at this
    have hp := indices_perm (sort_descending_perm c)
    simp only [indices] at hp ⊢
    rw [this] at hp
    exact hp

/-! ## The shape of the populations -/

/-- The population after `append_random` is the one before followed by `n` fresh
individuals of fitness 0, each built by `random_chromosome`. -/
theorem append_random_spec (inst : Instance) (n : Nat) (pop : Population) (g : Rng)
    (r : Population × Rng) (h : append_random inst n pop g = some r) :
    ∃ extra : Population, r.1 = pop ++ extra ∧ extra.length = n ∧
      ∀ ind ∈ extra, ind.2 = 0 ∧ ∃ g₁ g₂, random_chromosome inst g₁ = some (ind.1, g₂) := by
  induction n generalizing pop g with
  | zero =>
    simp only [append_random, Option.some.injEq] at h
    exact ⟨[], by simp [← h], rfl, by simp⟩
  | succ n ih =>
    simp only [append_random] at h
    split at h
    · exact absurd h (by simp)
    · rename_i c g' hc
      obtain ⟨extra, h1, h2, h3⟩ := ih _ _ h
      refine ⟨(c, 0) :: extra, by simp [h1], by simp [h2], ?_⟩
      intro ind hind
      rcases List.mem_cons.mp hind with rfl | hind
      · exact ⟨rfl, g, g', hc⟩
      · exact h3 ind hind

/-- The population after `append_offspring` is the one before followed by `n`
individuals of fitness 0, each the mutated crossover of two chromosomes of the
previous population. -/
theorem append_offspring_spec (prm : Params) (inst : Instance) (population : Population)
    (n : Nat) (pop : Population) (g : Rng) (r : Population × Rng)
    (h : append_offspring prm inst population n pop g = some r) :
    ∃ extra : Population, r.1 = pop ++ extra ∧ extra.length = n ∧
      ∀ ind ∈ extra, ind.2 = 0 ∧ ∃ e ∈ population, ∃ ne ∈ population, ∃ g₁ c g₂ g₃,
        crossover prm inst e.1 ne.1 g₁ = some (c, g₂) ∧ mutate inst c g₂ = some (ind.1, g₃) := by
  induction n generalizing pop g with
  | zero =>
    simp only [append_offspring, Option.some.injEq] at h
    exact ⟨[], by simp [← h], rfl, by simp⟩
  | succ n ih =>
    simp only [append_offspring] at h
    split at h
    · exact absurd h (by simp)
    · split at h
      · exact absurd h (by simp)
      · split at h
        · split at h
          · rename_i e ne he hne
            split at h
            · exact absurd h (by simp)
            · split at h
              · exact absurd h (by simp)
              · rename_i _ c g₃ hcross _ c' g₄ hmut
                obtain ⟨extra, h1, h2, h3⟩ := ih _ _ h
                refine ⟨(c', 0) :: extra, by simp [h1], by simp [h2], ?_⟩
                intro ind hind
                rcases List.mem_cons.mp hind with rfl | hind
                · exact ⟨rfl, e, List.getElem?_mem he, ne, List.getElem?_mem hne,
                    _, c, g₃, g₄, hcross, hmut⟩
                · exact h3 ind hind
          · exact absurd h (by simp)
        · exact absurd h (by simp)

/-- The first loop of `evaluate_population` keeps the chromosomes, in their order,
and gives every individual the value that `decode_chromosome` returns for it. -/
theorem evaluate_all_spec (inst : Instance) (pop pop' : Population)
    (h : evaluate_all inst pop = some pop') :
    pop'.map Prod.fst = pop.map Prod.fst ∧
      ∀ ind ∈ pop', ∃ sol, decode_chromosome inst ind.1 [] = some (sol, ind.2) := by
  induction pop generalizing pop' with
  | nil =>
    simp only [evaluate_all, Option.some.injEq] at h
    subst h; simp
  | cons a rest ih =>
    simp only [evaluate_all] at h
    split at h
    · exact absurd h (by simp)
    · rename_i res hdec
      split at h
      · exact absurd h (by simp)
      · rename_i rest' hrest
        simp only [Option.some.injEq] at h
        subst h
        obtain ⟨h1, h2⟩ := ih rest' hrest
        refine ⟨by simp [h1], ?_⟩
        intro ind hind
        rcases List.mem_cons.mp hind with rfl | hind
        · exact ⟨res.1, hdec⟩
        · exact h2 ind hind

/-- The population after `evaluate_population` rearranges the evaluated
individuals, in non-increasing order of fitness. -/
theorem evaluate_population_spec (srt : FitnessSort) (inst : Instance)
    (pop pop' : Population) (h : evaluate_population srt inst pop = some pop') :
    ∃ ev, evaluate_all inst pop = some ev ∧ pop'.Perm ev ∧ FitnessSorted pop' := by
  unfold evaluate_population at h
  split at h
  · exact absurd h (by simp)
  · rename_i ev hev
    simp only [Option.some.injEq] at h
    subst h
    exact ⟨ev, hev, srt.perm ev,
      List.Pairwise.imp (fun {a b} hab => not_lt.mp hab) (srt.sorted ev)⟩

/-- The population that `evolve_population` evaluates: the elite of the previous
one, then the mutants, then the crossover offspring. -/
theorem evolve_population_spec (srt : FitnessSort) (prm : Params) (inst : Instance)
    (population : Population) (g : Rng) (r : Population × Rng)
    (h : evolve_population srt prm inst population g = some r) :
    0 ≤ elite_size prm ∧ elite_size prm ≤ population.length ∧
    ∃ mutants offspring : Population,
      evaluate_population srt inst
        (population.take (elite_size prm).toNat ++ mutants ++ offspring) = some r.1 ∧
      mutants.length = (mutant_size prm).toNat ∧
      offspring.length = (crossover_size prm).toNat ∧
      (∀ ind ∈ mutants, ind.2 = 0 ∧ ∃ g₁ g₂, random_chromosome inst g₁ = some (ind.1, g₂)) ∧
      (∀ ind ∈ offspring, ind.2 = 0 ∧ ∃ e ∈ population, ∃ ne ∈ population, ∃ g₁ c g₂ g₃,
        crossover prm inst e.1 ne.1 g₁ = some (c, g₂) ∧
        mutate inst c g₂ = some (ind.1, g₃)) := by
  unfold evolve_population at h
  split at h
  · rename_i hes
    refine ⟨hes.1, hes.2, ?_⟩
    split at h
    · exact absurd h (by simp)
    · rename_i wm g₁ hrand
      split at h
      · exact absurd h (by simp)
      · rename_i np g₂ hoff
        split at h
        · exact absurd h (by simp)
        · rename_i pop' hev
          simp only [Option.some.injEq] at h
          subst h
          obtain ⟨mutants, hm1, hm2, hm3⟩ := append_random_spec _ _ _ _ _ hrand
          obtain ⟨offspring, ho1, ho2, ho3⟩ := append_offspring_spec _ _ _ _ _ _ _ hoff
          simp only at hm1 ho1
          subst hm1; subst ho1
          exact ⟨mutants, offspring, hev, hm2, ho2, hm3, ho3⟩
  · exact absurd h (by simp)

/-! ## Defined behaviour: when the operations run to their end -/

theorem next_unit_range (g : Rng) : 0 ≤ (next_unit g).1 ∧ (next_unit g).1 < 1 :=
  ⟨Int.fract_nonneg _, Int.fract_lt_one _⟩

/-- A draw from a non-empty integer range succeeds and lies in the range. -/
theorem uniform_int_distribution_range (a b : Int) (g : Rng) (hab : a ≤ b) :
    ∃ x g', uniform_int_distribution a b g = some (x, g') ∧ a ≤ x ∧ x ≤ b := by
  obtain ⟨h0, h1⟩ := next_unit_range g
  have hpos : (0 : ℚ) < ((b - a + 1 : Int) : ℚ) := by
    have : (0 : Int) < b - a + 1 := by omega
    exact_mod_cast this
  refine ⟨a + ⌊(next_unit g).1 * ((b - a + 1 : Int) : ℚ)⌋, (next_unit g).2,
    by simp [uniform_int_distribution, hab], ?_, ?_⟩
  · have : 0 ≤ ⌊(next_unit g).1 * ((b - a + 1 : Int) : ℚ)⌋ :=
      Int.floor_nonneg.mpr (mul_nonneg h0 (le_of_lt hpos))
    omega
  · have : ⌊(next_unit g).1 * ((b - a + 1 : Int) : ℚ)⌋ < b - a + 1 := by
      rw [Int.floor_lt]
      calc (next_unit g).1 * ((b - a + 1 : Int) : ℚ) < 1 * ((b - a + 1 : Int) : ℚ) :=
            mul_lt_mul_of_pos_right h1 hpos
        _ = ((b - a + 1 : Int) : ℚ) := one_mul _
    omega

/-- A draw from an empty integer range has no defined outcome. -/
theorem uniform_int_distribution_empty (a b : Int) (g : Rng) (hab : b < a) :
    uniform_int_distribution a b g = none := by
  simp [uniform_int_distribution, not_le.mpr hab]

theorem fill_genes_total (inst : Instance) (js : List Nat) (chromosome : Chromosome) (g : Rng)
    (hjs : ∀ j ∈ js, j < inst.items.length) :
    ∃ r, fill_genes inst js chromosome g = some r := by
  induction js generalizing chromosome g with
  | nil => exact ⟨_, rfl⟩
  | cons j js ih =>
    have hj := hjs j (by simp)
    simp only [fill_genes, List.getElem?_eq_getElem hj]
    exact ih _ _ (fun j' h' => hjs j' (by simp [h']))

theorem random_chromosome_total (inst : Instance) (g : Rng) (hlen : inst.N ≤ inst.items.length) :
    ∃ r, random_chromosome inst g = some r := by
  obtain ⟨r, hr⟩ := fill_genes_total inst (List.range inst.N) [] g
    (fun j hj => by have := List.mem_range.mp hj; omega)
  exact ⟨(sort_descending r.1, r.2), by simp [random_chromosome, hr]⟩

theorem append_random_total (inst : Instance) (n : Nat) (pop : Population) (g : Rng)
    (hlen : inst.N ≤ inst.items.length) : ∃ r, append_random inst n pop g = some r := by
  induction n generalizing pop g with
  | zero => exact ⟨_, rfl⟩
  | succ n ih =>
    obtain ⟨r, hr⟩ := random_chromosome_total inst g hlen
    simp only [append_random, hr]
    exact ih _ _

theorem decode_chromosome_total (inst : Instance) (chromosome : Chromosome)
    (solution : List Bool) (hlen : inst.N ≤ inst.items.length)
    (hvalid : ValidIndices inst chromosome) :
    ∃ r, decode_chromosome inst chromosome solution = some r := by
  obtain ⟨s, hs, -⟩ := decode_loop_total inst hlen chromosome (decode_init inst)
    (by simp [decode_init]) hvalid
  simp [decode_chromosome, hs]

theorem evaluate_all_total (inst : Instance) (pop : Population)
    (hlen : inst.N ≤ inst.items.length) (hvalid : ∀ ind ∈ pop, ValidIndices inst ind.1) :
    ∃ pop', evaluate_all inst pop = some pop' := by
  induction pop with
  | nil => exact ⟨_, rfl⟩
  | cons a rest ih =>
    obtain ⟨r, hr⟩ := decode_chromosome_total inst a.1 [] hlen (hvalid a (by simp))
    obtain ⟨rest', hrest⟩ := ih (fun ind h => hvalid ind (by simp [h]))
    simp [evaluate_all, hr, hrest]

theorem evaluate_population_total (srt : FitnessSort) (inst : Instance) (pop : Population)
    (hlen : inst.N ≤ inst.items.length) (hvalid : ∀ ind ∈ pop, ValidIndices inst ind.1) :
    ∃ pop', evaluate_population srt inst pop = some pop' := by
  obtain ⟨ev, hev⟩ := evaluate_all_total inst pop hlen hvalid
  simp [evaluate_population, hev]

theorem crossover_loop_total (prm : Params) (elite non_elite : Chromosome) (is : List Nat)
    (offspring : Chromosome) (g : Rng)
    (his : ∀ i ∈ is, i < elite.length ∧ i < non_elite.length) :
    ∃ r, crossover_loop prm elite non_elite is offspring g = some r := by
  induction is generalizing offspring g with
  | nil => exact ⟨_, rfl⟩
  | cons i is ih =>
    have hi := his i (by simp)
    simp only [crossover_loop, List.getElem?_eq_getElem hi.1, List.getElem?_eq_getElem hi.2]
    split
    · exact ih _ _ (fun i' h' => his i' (by simp [h']))
    · exact ih _ _ (fun i' h' => his i' (by simp [h']))

/-- With at least two items and a non-elite parent no shorter than the elite
parent, `crossover` runs to its end. -/
theorem crossover_total (prm : Params) (inst : Instance) (elite non_elite : Chromosome)
    (g : Rng) (hN : 2 ≤ inst.N) (hlen : elite.length ≤ non_elite.length) :
    ∃ r, crossover prm inst elite non_elite g = some r := by
  obtain ⟨cut, g₁, hcut, h1, -⟩ :=
    uniform_int_distribution_range 1 ((inst.N : Int) - 1) g (by omega)
  obtain ⟨r, hr⟩ := crossover_loop_total prm elite non_elite
    (List.range' cut.toNat (elite.length - cut.toNat)) elite g₁
    (fun i hi => by
      have := List.mem_range'_1.mp hi
      omega)
  exact ⟨(sort_descending r.1, r.2), by simp [crossover, hcut, hr]⟩

theorem mutate_loop_total (inst : Instance) (chromosome : Chromosome) (g : Rng)
    (hlen : inst.N ≤ inst.items.length) (hvalid : ValidIndices inst chromosome) :
    ∃ r, mutate_loop inst chromosome g = some r := by
  induction chromosome generalizing g with
  | nil => exact ⟨_, rfl⟩
  | cons c cs ih =>
    have hc := hvalid c (by simp)
    have hi : c.2.toNat < inst.items.length := by omega
    have hrest : ValidIndices inst cs := fun c' h' => hvalid c' (by simp [h'])
    simp only [mutate_loop, hc.1, if_true, List.getElem?_eq_getElem hi]
    split
    · obtain ⟨r, hr⟩ := ih (dist (mutation_prob g).2).2 hrest
      simp [hr]
    · obtain ⟨r, hr⟩ := ih (mutation_prob g).2 hrest
      simp [hr]

theorem mutate_total (inst : Instance) (chromosome : Chromosome) (g : Rng)
    (hlen : inst.N ≤ inst.items.length) (hvalid : ValidIndices inst chromosome) :
    ∃ r, mutate inst chromosome g = some r := by
  obtain ⟨r, hr⟩ := mutate_loop_total inst chromosome g hlen hvalid
  exact ⟨(sort_descending r.1, r.2), by simp [mutate, hr]⟩

/-- For shares `pe, pm ≥ 0` with `pe + pm ≤ 1` the three group sizes are
non-negative; they add up to `P` by the definition of `crossover_size`. -/
theorem group_sizes (prm : Params) (hpe : 0 ≤ prm.pe) (hpm : 0 ≤ prm.pm)
    (hsum : prm.pe + prm.pm ≤ 1) :
    0 ≤ elite_size prm ∧ 0 ≤ mutant_size prm ∧ 0 ≤ crossover_size prm ∧
      elite_size prm = ⌊(prm.P : ℚ) * prm.pe⌋ ∧ mutant_size prm = ⌊(prm.P : ℚ) * prm.pm⌋ := by
  have hP : (0 : ℚ) ≤ (prm.P : ℚ) := Nat.cast_nonneg _
  have h1 : 0 ≤ (prm.P : ℚ) * prm.pe := mul_nonneg hP hpe
  have h2 : 0 ≤ (prm.P : ℚ) * prm.pm := mul_nonneg hP hpm
  have he : elite_size prm = ⌊(prm.P : ℚ) * prm.pe⌋ := by simp [elite_size, static_cast_int, h1]
  have hm : mutant_size prm = ⌊(prm.P : ℚ) * prm.pm⌋ := by simp [mutant_size, static_cast_int, h2]
  have he0 : 0 ≤ ⌊(prm.P : ℚ) * prm.pe⌋ := Int.floor_nonneg.mpr h1
  have hm0 : 0 ≤ ⌊(prm.P : ℚ) * prm.pm⌋ := Int.floor_nonneg.mpr h2
  refine ⟨by omega, by omega, ?_, he, hm⟩
  have hle : ((⌊(prm.P : ℚ) * prm.pe⌋ + ⌊(prm.P : ℚ) * prm.pm⌋ : Int) : ℚ) ≤ ((prm.P : Int) : ℚ) := by
    have a1 := Int.floor_le ((prm.P : ℚ) * prm.pe)
    have a2 := Int.floor_le ((prm.P : ℚ) * prm.pm)
    have a3 : (prm.P : ℚ) * prm.pe + (prm.P : ℚ) * prm.pm ≤ (prm.P : ℚ) := by
      have := mul_le_mul_of_nonneg_left hsum hP
      linarith
    push_cast
    linarith
  have hle' : ⌊(prm.P : ℚ) * prm.pe⌋ + ⌊(prm.P : ℚ) * prm.pm⌋ ≤ (prm.P : Int) := by
    exact_mod_cast hle
  unfold crossover_size
  omega

theorem append_offspring_total (prm : Params) (inst : Instance) (population : Population)
    (hlen : inst.N ≤ inst.items.length) (hN : 2 ≤ inst.N)
    (hpop : ∀ ind ∈ population, WellFormed inst ind.1)
    (hes : 1 ≤ elite_size prm) (hesP : elite_size prm ≤ (prm.P : Int) - 1)
    (hP : prm.P ≤ population.length)
    (n : Nat) (pop : Population) (g : Rng) :
    ∃ r, append_offspring prm inst population n pop g = some r := by
  induction n generalizing pop g with
  | zero => exact ⟨_, rfl⟩
  | succ n ih =>
    obtain ⟨ei, g₁, h1, he0, he1⟩ :=
      uniform_int_distribution_range 0 (elite_size prm - 1) g (by omega)
    obtain ⟨ni, g₂, h2, hn0, hn1⟩ :=
      uniform_int_distribution_range (elite_size prm) ((prm.P : Int) - 1) g₁ hesP
    have hei : ei.toNat < population.length := by omega
    have hni : ni.toNat < population.length := by omega
    have hwe := hpop _ (List.getElem_mem hei)
    have hwn := hpop _ (List.getElem_mem hni)
    obtain ⟨c, hc⟩ := crossover_total prm inst population[ei.toNat].1 population[ni.toNat].1 g₂ hN
      (by rw [hwe.1, hwn.1])
    have hwc : WellFormed inst c.1 :=
      wellFormed_of_perm inst
        ((crossover_spec _ _ _ _ _ _ hc).1.trans (List.Perm.refl _)) hwe
    obtain ⟨c', hc'⟩ := mutate_total inst c.1 c.2 hlen hwc.valid
    simp only [append_offspring, h1, h2, List.getElem?_eq_getElem hei,
      List.getElem?_eq_getElem hni]
    rw [if_pos ⟨he0, by omega⟩]
    simp only [hc, hc']
    exact ih _ _

/-- The chromosomes of the next population before its evaluation are well formed
when those of the previous population are. -/
theorem evolve_chromosomes_wellFormed (prm : Params) (inst : Instance)
    (population mutants offspring : Population)
    (hpop : ∀ ind ∈ population, WellFormed inst ind.1)
    (hm : ∀ ind ∈ mutants, ind.2 = 0 ∧ ∃ g₁ g₂, random_chromosome inst g₁ = some (ind.1, g₂))
    (ho : ∀ ind ∈ offspring, ind.2 = 0 ∧ ∃ e ∈ population, ∃ ne ∈ population, ∃ g₁ c g₂ g₃,
        crossover prm inst e.1 ne.1 g₁ = some (c, g₂) ∧ mutate inst c g₂ = some (ind.1, g₃))
    (k : Nat) :
    ∀ ind ∈ population.take k ++ mutants ++ offspring, WellFormed inst ind.1 := by
  intro ind hind
  simp only [List.mem_append] at hind
  rcases hind with (hind | hind) | hind
  · exact hpop ind (List.mem_of_mem_take hind)
  · obtain ⟨-, g₁, g₂, hr⟩ := hm ind hind
    exact (random_chromosome_spec inst g₁ _ hr).1
  · obtain ⟨-, e, he, ne, -, g₁, c, g₂, g₃, hc, hmu⟩ := ho ind hind
    exact wellFormed_of_perm inst
      ((mutate_spec _ _ _ _ hmu).1.trans (crossover_spec _ _ _ _ _ _ hc).1) (hpop e he)

/-- With the catalog loaded, well-formed chromosomes in a population of `P`
individuals and, when there are crossover slots, at least two items and at
least one elite individual, `evolve_population` runs to its end. -/
theorem evolve_population_total (srt : FitnessSort) (prm : Params) (inst : Instance)
    (population : Population) (g : Rng)
    (hpe : 0 ≤ prm.pe) (hpm : 0 ≤ prm.pm) (hsum : prm.pe + prm.pm ≤ 1)
    (hP : population.length = prm.P) (hlen : inst.N ≤ inst.items.length)
    (hpop : ∀ ind ∈ population, WellFormed inst ind.1)
    (hcross : 0 < crossover_size prm → 2 ≤ inst.N ∧ 1 ≤ elite_size prm) :
    ∃ r, evolve_population srt prm inst population g = some r := by
  obtain ⟨he0, hm0, hc0, -, -⟩ := group_sizes prm hpe hpm hsum
  have hdef : crossover_size prm = (prm.P : Int) - elite_size prm - mutant_size prm := rfl
  have hes : 0 ≤ elite_size prm ∧ elite_size prm ≤ (population.length : Int) := by
    constructor <;> omega
  obtain ⟨wm, hwm⟩ := append_random_total inst (mutant_size prm).toNat
    (population.take (elite_size prm).toNat) g hlen
  have hoff : ∃ r, append_offspring prm inst population (crossover_size prm).toNat wm.1 wm.2
      = some r := by
    by_cases hc : 0 < crossover_size prm
    · obtain ⟨hN, hes1⟩ := hcross hc
      exact append_offspring_total prm inst population hlen hN hpop hes1 (by omega) (by omega) _ _ _
    · have : (crossover_size prm).toNat = 0 := by omega
      rw [this]
      exact ⟨_, rfl⟩
  obtain ⟨np, hnp⟩ := hoff
  obtain ⟨mutants, hm1, -, hm3⟩ := append_random_spec _ _ _ _ _ hwm
  obtain ⟨offspring, ho1, -, ho3⟩ := append_offspring_spec _ _ _ _ _ _ _ hnp
  have hwf := evolve_chromosomes_wellFormed prm inst population mutants offspring hpop hm3 ho3
    (elite_size prm).toNat
  rw [← hm1, ← ho1] at hwf
  obtain ⟨pop', hpop'⟩ := evaluate_population_total srt inst np.1 hlen
    (fun ind hind => (hwf ind hind).valid)
  refine ⟨(pop', np.2), ?_⟩
  unfold evolve_population
  rw [if_pos hes]
  simp only [hwm, hnp, hpop']

theorem evaluate_all_keeps (inst : Instance) (pop ev : Population)
    (h : evaluate_all inst pop = some ev) :
    ∀ ind ∈ pop, ∃ sol v, decode_chromosome inst ind.1 [] = some (sol, v) ∧ (ind.1, v) ∈ ev := by
  induction pop generalizing ev with
  | nil => simp
  | cons a rest ih =>
    simp only [evaluate_all] at h
    split at h
    · exact absurd h (by simp)
    · rename_i res hdec
      split at h
      · exact absurd h (by simp)
      · rename_i rest' hrest
        simp only [Option.some.injEq] at h
        subst h
        intro ind hind
        rcases List.mem_cons.mp hind with rfl | hind
        · exact ⟨res.1, res.2, hdec, by simp⟩
        · obtain ⟨sol, v, h1, h2⟩ := ih rest' hrest ind hind
          exact ⟨sol, v, h1, by simp [h2]⟩

theorem evaluate_population_length (srt : FitnessSort) (inst : Instance)
    (pop pop' : Population) (h : evaluate_population srt inst pop = some pop') :
    pop'.length = pop.length := by
  obtain ⟨ev, hev, hperm, -⟩ := evaluate_population_spec srt inst pop pop' h
  have := congrArg List.length (evaluate_all_spec inst pop ev hev).1
  simp only [List.length_map] at this
  rw [hperm.length_eq, this]

/-- Every chromosome of the evaluated population is a chromosome of the
population that was evaluated. -/
theorem evaluate_population_mem (srt : FitnessSort) (inst : Instance)
    (pop pop' : Population) (h : evaluate_population srt inst pop = some pop') :
    ∀ ind ∈ pop', ∃ ind₀ ∈ pop, ind₀.1 = ind.1 := by
  obtain ⟨ev, hev, hperm, -⟩ := evaluate_population_spec srt inst pop pop' h
  intro ind hind
  have h1 : ind.1 ∈ ev.map Prod.fst := List.mem_map_of_mem _ (hperm.subset hind)
  rw [(evaluate_all_spec inst pop ev hev).1] at h1
  obtain ⟨ind₀, h0, h0'⟩ := List.mem_map.mp h1
  exact ⟨ind₀, h0, h0'⟩

/-- Every fitness of an evaluated population is the value that the decoder
returns for the chromosome. -/
theorem evaluate_population_fitness (srt : FitnessSort) (inst : Instance)
    (pop pop' : Population) (h : evaluate_population srt inst pop = some pop') :
    ∀ ind ∈ pop', ∃ sol, decode_chromosome inst ind.1 [] = some (sol, ind.2) := by
  obtain ⟨ev, hev, hperm, -⟩ := evaluate_population_spec srt inst pop pop' h
  intro ind hind
  exact (evaluate_all_spec inst pop ev hev).2 ind (hperm.subset hind)

theorem evaluate_population_sorted (srt : FitnessSort) (inst : Instance)
    (pop pop' : Population) (h : evaluate_population srt inst pop = some pop') :
    FitnessSorted pop' :=
  (evaluate_population_spec srt inst pop pop' h).choose_spec.2.2

theorem evolve_population_length (srt : FitnessSort) (prm : Params) (inst : Instance)
    (population : Population) (g : Rng) (r : Population × Rng)
    (hpe : 0 ≤ prm.pe) (hpm : 0 ≤ prm.pm) (hsum : prm.pe + prm.pm ≤ 1)
    (h : evolve_population srt prm inst population g = some r) : r.1.length = prm.P := by
  obtain ⟨he0, hm0, hc0, -, -⟩ := group_sizes prm hpe hpm hsum
  obtain ⟨-, hes, mutants, offspring, hev, hm, ho, -, -⟩ :=
    evolve_population_spec srt prm inst population g r h
  have hdef : crossover_size prm = (prm.P : Int) - elite_size prm - mutant_size prm := rfl
  rw [evaluate_population_length srt inst _ _ hev]
  simp only [List.length_append, List.length_take, hm, ho]
  omega

theorem generate_population_spec (prm : Params) (inst : Instance) (old : Population) (g : Rng)
    (r : Population × Rng) (h : generate_population prm inst old g = some r) :
    r.1.length = prm.P ∧
      ∀ ind ∈ r.1, ind.2 = 0 ∧ WellFormed inst ind.1 ∧ KeysSorted ind.1 := by
  obtain ⟨extra, h1, h2, h3⟩ := append_random_spec inst prm.P [] g r h
  simp only [List.nil_append] at h1
  rw [h1]
  refine ⟨h2, fun ind hind => ?_⟩
  obtain ⟨hz, g₁, g₂, hr⟩ := h3 ind hind
  exact ⟨hz, random_chromosome_spec inst g₁ _ hr⟩

/-- A property of chromosomes that fresh chromosomes have and that `crossover`
followed by `mutate` hands on from the elite parent holds for every
chromosome after `evolve_population` when it held before. -/
theorem evolve_population_chromosomes (srt : FitnessSort) (prm : Params) (inst : Instance)
    (Q : Chromosome → Prop)
    (hrand : ∀ g r, random_chromosome inst g = some r → Q r.1)
    (hcross : ∀ e ne g₁ c g₂ g₃ c', Q e → crossover prm inst e ne g₁ = some (c, g₂) →
      mutate inst c g₂ = some (c', g₃) → Q c')
    (population : Population) (g : Rng) (r : Population × Rng)
    (hpop : ∀ ind ∈ population, Q ind.1)
    (h : evolve_population srt prm inst population g = some r) :
    ∀ ind ∈ r.1, Q ind.1 := by
  obtain ⟨-, -, mutants, offspring, hev, -, -, hm, ho⟩ :=
    evolve_population_spec srt prm inst population g r h
  intro ind hind
  obtain ⟨ind₀, h0, h0'⟩ := evaluate_population_mem srt inst _ _ hev ind hind
  rw [← h0']
  simp only [List.mem_append] at h0
  rcases h0 with (h0 | h0) | h0
  · exact hpop ind₀ (List.mem_of_mem_take h0)
  · obtain ⟨-, g₁, g₂, hr⟩ := hm ind₀ h0
    exact hrand g₁ _ hr
  · obtain ⟨-, e, he, ne, -, g₁, c, g₂, g₃, hc, hmu⟩ := ho ind₀ h0
    exact hcross e.1 ne.1 g₁ c g₂ g₃ ind₀.1 (hpop e he) hc hmu

/-- A property of chromosomes as in `evolve_population_chromosomes` holds for every
chromosome of every population that `main` reaches. -/
theorem run_generations_chromosomes (srt : FitnessSort) (prm : Params) (inst : Instance)
    (Q : Chromosome → Prop)
    (hrand : ∀ g r, random_chromosome inst g = some r → Q r.1)
    (hcross : ∀ e ne g₁ c g₂ g₃ c', Q e → crossover prm inst e ne g₁ = some (c, g₂) →
      mutate inst c g₂ = some (c', g₃) → Q c')
    (k : Nat) (g : Rng) (r : Population × Rng)
    (h : run_generations srt prm inst k g = some r) : ∀ ind ∈ r.1, Q ind.1 := by
  induction k generalizing r with
  | zero =>
    simp only [run_generations] at h
    split at h
    · exact absurd h (by simp)
    · rename_i pop g' hgen
      split at h
      · exact absurd h (by simp)
      · rename_i pop' hev
        simp only [Option.some.injEq] at h
        subst h
        intro ind hind
        obtain ⟨ind₀, h0, h0'⟩ := evaluate_population_mem srt inst _ _ hev ind hind
        obtain ⟨extra, h1, -, h3⟩ := append_random_spec inst prm.P [] g _ hgen
        simp only [List.nil_append] at h1
        rw [h1] at h0
        obtain ⟨-, g₁, g₂, hr⟩ := h3 ind₀ h0
        rw [← h0']
        exact hrand g₁ _ hr
  | succ k ih =>
    simp only [run_generations] at h
    split at h
    · exact absurd h (by simp)
    · rename_i pop g' hrun
      exact evolve_population_chromosomes srt prm inst Q hrand hcross pop g' r
        (ih (pop, g') hrun) h

/-- Every population that `main` reaches comes out of `evaluate_population`. -/
theorem run_generations_evaluated (srt : FitnessSort) (prm : Params) (inst : Instance)
    (k : Nat) (g : Rng) (r : Population × Rng)
    (h : run_generations srt prm inst k g = some r) :
    ∃ pop₀, evaluate_population srt inst pop₀ = some r.1 := by
  cases k with
  | zero =>
    simp only [run_generations] at h
    split at h
    · exact absurd h (by simp)
    · rename_i pop g' hgen
      split at h
      · exact absurd h (by simp)
      · rename_i pop' hev
        simp only [Option.some.injEq] at h
        subst h
        exact ⟨pop, hev⟩
  | succ k =>
    simp only [run_generations] at h
    split at h
    · exact absurd h (by simp)
    · rename_i pop g' hrun
      obtain ⟨-, -, mutants, offspring, hev, -⟩ := evolve_population_spec srt prm inst pop g' r h
      exact ⟨_, hev⟩

/-- The best fitness does not decrease over `evolve_population` when at least one
elite individual is carried over. -/
theorem evolve_best_fitness (srt : FitnessSort) (prm : Params) (inst : Instance)
    (pop₀ population : Population) (g : Rng) (r : Population × Rng)
    (heval : evaluate_population srt inst pop₀ = some population)
    (hes : 1 ≤ elite_size prm)
    (h : evolve_population srt prm inst population g = some r) :
    ∃ best best', population.head? = some best ∧ r.1.head? = some best' ∧
      best.2 ≤ best'.2 := by
  obtain ⟨-, hesl, mutants, offspring, hev, -⟩ :=
    evolve_population_spec srt prm inst population g r h
  cases hpop : population with
  | nil => rw [hpop] at hesl; simp at hesl; omega
  | cons best rest =>
    have htake : best ∈ population.take (elite_size prm).toNat := by
      obtain ⟨n, hn⟩ : ∃ n, (elite_size prm).toNat = n + 1 := ⟨(elite_size prm).toNat - 1, by omega⟩
      rw [hpop, hn]
      simp
    obtain ⟨ev, hall, hperm, hsorted⟩ := evaluate_population_spec srt inst _ _ hev
    obtain ⟨sol, v, hdec, hmem⟩ := evaluate_all_keeps inst _ ev hall best
      (by simp only [List.mem_append]; exact Or.inl (Or.inl htake))
    obtain ⟨sol', hdec'⟩ := evaluate_population_fitness srt inst pop₀ population heval best
      (by rw [hpop]; simp)
    rw [hdec] at hdec'
    have hv : v = best.2 := by
      have := Option.some.inj hdec'
      exact (Prod.mk.inj this).2
    rw [hv] at hmem
    have hin : (best.1, best.2) ∈ r.1 := hperm.symm.subset hmem
    cases hr : r.1 with
    | nil => rw [hr] at hin; simp at hin
    | cons best' rest' =>
      refine ⟨best, best', rfl, rfl, ?_⟩
      rw [hr] at hin hsorted
      rcases List.mem_cons.mp hin with heq | hin
      · rw [← heq]
      · exact (List.pairwise_cons.mp hsorted).1 _ hin

theorem source_group_sizes :
    elite_size source_params = 30 ∧ mutant_size source_params = 20 ∧
      crossover_size source_params = 50 := by
  decide!

/-! ## The claims about the population and the evolution engine -/

/-- C5. Population size invariant. For shares `pe, pm ≥ 0` with `pe + pm ≤ 1`:
the population that `generate_population` returns has exactly `P` individuals;
the population that `evolve_population` returns for a population of `P`
individuals has exactly `P` individuals; so has every population that `main`
reaches. `evolve_population` does return a population when the catalog is
loaded, the chromosomes are well formed and, if there are crossover slots,
there are at least two items and at least one elite individual. -/
theorem population_size_invariant (srt : FitnessSort) (prm : Params) (inst : Instance)
    (hpe : 0 ≤ prm.pe) (hpm : 0 ≤ prm.pm) (hsum : prm.pe + prm.pm ≤ 1) :
    (∀ old g r, generate_population prm inst old g = some r → r.1.length = prm.P) ∧
    (∀ population g r, population.length = prm.P →
      evolve_population srt prm inst population g = some r → r.1.length = prm.P) ∧
    (∀ k g r, run_generations srt prm inst k g = some r → r.1.length = prm.P) ∧
    (∀ population g, population.length = prm.P → inst.N ≤ inst.items.length →
      (∀ ind ∈ population, WellFormed inst ind.1) →
      (0 < crossover_size prm → 2 ≤ inst.N ∧ 1 ≤ elite_size prm) →
      ∃ r, evolve_population srt prm inst population g = some r) := by
  refine ⟨?_, ?_, ?_, ?_⟩
  · intro old g r h
    exact (generate_population_spec prm inst old g r h).1
  · intro population g r _ h
    exact evolve_population_length srt prm inst population g r hpe hpm hsum h
  · intro k g r h
    cases k with
    | zero =>
      simp only [run_generations] at h
      split at h
      · exact absurd h (by simp)
      · rename_i pop g' hgen
        split at h
        · exact absurd h (by simp)
        · rename_i pop' hev
          simp only [Option.some.injEq] at h
          subst h
          rw [evaluate_population_length srt inst _ _ hev]
          exact (generate_population_spec prm inst [] g _ hgen).1
    | succ k =>
      simp only [run_generations] at h
      split at h
      · exact absurd h (by simp)
      · rename_i pop g' hrun
        exact evolve_population_length srt prm inst pop g' r hpe hpm hsum h
  · intro population g hP hlen hpop hcross
    exact evolve_population_total srt prm inst population g hpe hpm hsum hP hlen hpop hcross

/-- C6. Monotonic elitism, for the parameters of the source (`P = 100`, 30 elite
individuals): when `evolve_population` is applied to a population that comes out
of `evaluate_population`, the fitness of the first individual afterwards is at
least the fitness of the first individual before; so the best fitness of
generation `k + 1` is at least the best fitness of generation `k`. -/
theorem monotonic_elitism (srt : FitnessSort) (inst : Instance) :
    (∀ pop₀ population g r, evaluate_population srt inst pop₀ = some population →
      evolve_population srt source_params inst population g = some r →
      ∃ best best', population.head? = some best ∧ r.1.head? = some best' ∧
        best.2 ≤ best'.2) ∧
    (∀ k g r r', run_generations srt source_params inst k g = some r →
      run_generations srt source_params inst (k + 1) g = some r' →
      ∃ best best', r.1.head? = some best ∧ r'.1.head? = some best' ∧ best.2 ≤ best'.2) := by
  have hes : 1 ≤ elite_size source_params := by
    rw [source_group_sizes.1]; decide
  refine ⟨?_, ?_⟩
  · intro pop₀ population g r heval h
    exact evolve_best_fitness srt source_params inst pop₀ population g r heval hes h
  · intro k g r r' hk hk1
    obtain ⟨pop₀, heval⟩ := run_generations_evaluated srt source_params inst k g r hk
    simp only [run_generations, hk] at hk1
    exact evolve_best_fitness srt source_params inst pop₀ r.1 r.2 r' heval hes hk1

/-- C7. Sortedness of the population: the population that `evaluate_population`
returns is non-increasing in fitness (for all positions `i < j` the fitness at
`i` is at least the fitness at `j`); hence so is the population after
`evolve_population` and every population that `main` reaches. -/
theorem population_fitness_sorted (srt : FitnessSort) (prm : Params) (inst : Instance) :
    (∀ pop sorted_pop, evaluate_population srt inst pop = some sorted_pop →
      ∀ (i j : Nat) (_ : i < j) (hj : j < sorted_pop.length),
        (sorted_pop.get ⟨j, hj⟩).2 ≤ (sorted_pop.get ⟨i, by omega⟩).2) ∧
    (∀ population g r, evolve_population srt prm inst population g = some r →
      FitnessSorted r.1) ∧
    (∀ k g r, run_generations srt prm inst k g = some r → FitnessSorted r.1) := by
  refine ⟨?_, ?_, ?_⟩
  · intro pop sorted_pop h i j hij hj
    have hs := evaluate_population_sorted srt inst pop sorted_pop h
    exact (List.pairwise_iff_get.mp hs) ⟨i, by omega⟩ ⟨j, hj⟩ hij
  · intro population g r h
    obtain ⟨-, -, mutants, offspring, hev, -⟩ :=
      evolve_population_spec srt prm inst population g r h
    exact evaluate_population_sorted srt inst _ _ hev
  · intro k g r h
    obtain ⟨pop₀, heval⟩ := run_generations_evaluated srt prm inst k g r h
    exact evaluate_population_sorted srt inst _ _ heval

/-- C8. Sortedness of gene keys: the chromosomes that `generate_population`, the
mutant construction (`random_chromosome`), `crossover` and `mutate` produce have
non-increasing keys from front to back; `evolve_population` keeps this for the
carried-over elite, so every chromosome of every population that `main`
reaches, which are the chromosomes handed to the decoder, is in descending key
order. -/
theorem chromosome_keys_sorted (srt : FitnessSort) (prm : Params) (inst : Instance) :
    (∀ old g r, generate_population prm inst old g = some r →
      ∀ ind ∈ r.1, KeysSorted ind.1) ∧
    (∀ g r, random_chromosome inst g = some r → KeysSorted r.1) ∧
    (∀ elite non_elite g r, crossover prm inst elite non_elite g = some r → KeysSorted r.1) ∧
    (∀ chromosome g r, mutate inst chromosome g = some r → KeysSorted r.1) ∧
    (∀ population g r, (∀ ind ∈ population, KeysSorted ind.1) →
      evolve_population srt prm inst population g = some r → ∀ ind ∈ r.1, KeysSorted ind.1) ∧
    (∀ k g r, run_generations srt prm inst k g = some r → ∀ ind ∈ r.1, KeysSorted ind.1) := by
  have hrand : ∀ g r, random_chromosome inst g = some r → KeysSorted r.1 :=
    fun g r h => (random_chromosome_spec inst g r h).2
  have hcross : ∀ e ne g₁ c g₂ g₃ c', KeysSorted e → crossover prm inst e ne g₁ = some (c, g₂) →
      mutate inst c g₂ = some (c', g₃) → KeysSorted c' :=
    fun _ _ _ c g₂ _ _ _ _ hmu => (mutate_spec inst c g₂ _ hmu).2
  refine ⟨?_, hrand, ?_, ?_, ?_, ?_⟩
  · intro old g r h ind hind
    exact ((generate_population_spec prm inst old g r h).2 ind hind).2.2
  · intro elite non_elite g r h
    exact (crossover_spec prm inst elite non_elite g r h).2
  · intro chromosome g r h
    exact (mutate_spec inst chromosome g r h).2
  · intro population g r hpop h
    exact evolve_population_chromosomes srt prm inst KeysSorted hrand hcross population g r hpop h
  · intro k g r h
    exact run_generations_chromosomes srt prm inst KeysSorted hrand hcross k g r h

/-- C9. Chromosome well-formedness: every chromosome after `generate_population`,
after `evolve_population` of a population of well-formed chromosomes, and in
every population that `main` reaches has exactly `N` genes and holds each item
index `0..N-1` exactly once; `crossover` of two such chromosomes and `mutate`
of such a chromosome yield such a chromosome again. -/
theorem chromosome_wellFormed (srt : FitnessSort) (prm : Params) (inst : Instance) :
    (∀ old g r, generate_population prm inst old g = some r →
      ∀ ind ∈ r.1, WellFormed inst ind.1) ∧
    (∀ population g r, (∀ ind ∈ population, WellFormed inst ind.1) →
      evolve_population srt prm inst population g = some r →
      ∀ ind ∈ r.1, WellFormed inst ind.1) ∧
    (∀ k g r, run_generations srt prm inst k g = some r →
      ∀ ind ∈ r.1, WellFormed inst ind.1) ∧
    (∀ elite non_elite g r, WellFormed inst elite → WellFormed inst non_elite →
      crossover prm inst elite non_elite g = some r → WellFormed inst r.1) ∧
    (∀ chromosome g r, WellFormed inst chromosome →
      mutate inst chromosome g = some r → WellFormed inst r.1) := by
  have hrand : ∀ g r, random_chromosome inst g = some r → WellFormed inst r.1 :=
    fun g r h => (random_chromosome_spec inst g r h).1
  have hcross : ∀ e ne g₁ c g₂ g₃ c', WellFormed inst e →
      crossover prm inst e ne g₁ = some (c, g₂) →
      mutate inst c g₂ = some (c', g₃) → WellFormed inst c' :=
    fun e ne g₁ c g₂ g₃ c' he hc hmu =>
      wellFormed_of_perm inst
        ((mutate_spec inst c g₂ _ hmu).1.trans (crossover_spec prm inst e ne g₁ _ hc).1) he
  refine ⟨?_, ?_, ?_, ?_, ?_⟩
  · intro old g r h ind hind
    exact ((generate_population_spec prm inst old g r h).2 ind hind).2.1
  · intro population g r hpop h
    exact evolve_population_chromosomes srt prm inst (WellFormed inst) hrand hcross
      population g r hpop h
  · intro k g r h
    exact run_generations_chromosomes srt prm inst (WellFormed inst) hrand hcross k g r h
  · intro elite non_elite g r he _ h
    exact wellFormed_of_perm inst (crossover_spec prm inst elite non_elite g r h).1 he
  · intro chromosome g r hc h
    exact wellFormed_of_perm inst (mutate_spec inst chromosome g r h).1 hc

/-- With a single item the cut point range `[1, N - 1]` is empty. -/
theorem crossover_single_item (prm : Params) (inst : Instance) (hN : inst.N ≤ 1)
    (elite non_elite : Chromosome) (g : Rng) :
    crossover prm inst elite non_elite g = none := by
  have h := uniform_int_distribution_empty 1 ((inst.N : Int) - 1) g (by omega)
  simp [crossover, h]

theorem append_offspring_single_item (prm : Params) (inst : Instance) (hN : inst.N ≤ 1)
    (population : Population) (n : Nat) (pop : Population) (g : Rng) :
    append_offspring prm inst population (n + 1) pop g = none := by
  simp only [append_offspring]
  split
  · rfl
  · split
    · rfl
    · split
      · split
        · rw [crossover_single_item prm inst hN]
        · rfl
      · rfl

/-- C10 (the failing input). For the validated single-item instance, every call of
`crossover` draws the cut point from the empty range `[1, 0]`, and so
`evolve_population` with the parameters of the source has no defined result,
whatever the population and the random stream. -/
theorem evolve_population_single_item (srt : FitnessSort) (population : Population)
    (g : Rng) :
    (0 < single_item_instance.N ∧ 0 ≤ single_item_instance.C ∧
      single_item_instance.items.length = single_item_instance.N ∧
      ∀ it ∈ single_item_instance.items, 0 < it.weight ∧ 0 < it.value) ∧
    uniform_int_distribution 1 ((single_item_instance.N : Int) - 1) g = none ∧
    (∀ elite non_elite, crossover source_params single_item_instance elite non_elite g = none) ∧
    evolve_population srt source_params single_item_instance population g = none := by
  have hN : single_item_instance.N ≤ 1 := by decide
  refine ⟨by decide, uniform_int_distribution_empty _ _ _ (by decide), ?_, ?_⟩
  · intro elite non_elite
    exact crossover_single_item _ _ hN _ _ _
  · unfold evolve_population
    split
    · split
      · rfl
      · have h50 : (crossover_size source_params).toNat = 49 + 1 := by
          rw [source_group_sizes.2.2]; rfl
        rw [h50, append_offspring_single_item _ _ hN]
    · rfl

/-! ## The claims at concrete inputs -/

/-- C5 (witness). The size invariant for four individuals of the scenario instance. -/
theorem population_size_invariant_witness :
    (0 ≤ small_params.pe ∧ 0 ≤ small_params.pm ∧ small_params.pe + small_params.pm ≤ 1 ∧
      small_population.length = small_params.P) ∧
    (∃ r, generate_population small_params scenario_instance small_population example_rng
        = some r ∧ r.1.length = small_params.P) ∧
    (∃ r, evolve_population insertion_fitness_sort small_params scenario_instance
        small_population example_rng = some r ∧ r.1.length = small_params.P) ∧
    (∃ r, run_generations insertion_fitness_sort small_params scenario_instance 2
        example_rng = some r ∧ r.1.length = small_params.P) :=
  have hpe : 0 ≤ small_params.pe := by decide!
  have hpm : 0 ≤ small_params.pm := by decide!
  have hsum : small_params.pe + small_params.pm ≤ 1 := by decide!
  have hP : small_population.length = small_params.P := by decide!
  have h := population_size_invariant insertion_fitness_sort small_params scenario_instance
    hpe hpm hsum
  have hg : (generate_population small_params scenario_instance small_population
      example_rng).isSome = true := by decide!
  have ⟨r, hr⟩ := h.2.2.2 small_population example_rng hP (by decide!) (by decide!) (by decide!)
  have hk : (run_generations insertion_fitness_sort small_params scenario_instance 2
      example_rng).isSome = true := by decide!
  ⟨⟨hpe, hpm, hsum, hP⟩,
    ⟨_, (Option.some_get hg).symm, h.1 _ _ _ (Option.some_get hg).symm⟩,
    ⟨r, hr, h.2.1 small_population example_rng r hP hr⟩,
    ⟨_, (Option.some_get hk).symm, h.2.2.1 2 example_rng _ (Option.some_get hk).symm⟩⟩

/-- C6 (witness). Monotonic elitism for populations of 100 individuals of the scenario instance. -/
theorem monotonic_elitism_witness :
    (∃ pop₀ population r,
      evaluate_population insertion_fitness_sort scenario_instance pop₀ = some population ∧
      evolve_population insertion_fitness_sort source_params scenario_instance population
        example_rng = some r ∧
      ∃ best best', population.head? = some best ∧ r.1.head? = some best' ∧
        best.2 ≤ best'.2) ∧
    (∃ r r', run_generations insertion_fitness_sort source_params scenario_instance 0
        example_rng = some r ∧
      run_generations insertion_fitness_sort source_params scenario_instance 1
        example_rng = some r' ∧
      ∃ best best', r.1.head? = some best ∧ r'.1.head? = some best' ∧ best.2 ≤ best'.2) :=
  have hp : evaluate_population insertion_fitness_sort scenario_instance
      (List.replicate 100 (scenario_chromosome, 0)) =
      some (List.replicate 100 (scenario_chromosome, 70)) := by decide!
  have he : (evolve_population insertion_fitness_sort source_params scenario_instance
      (List.replicate 100 (scenario_chromosome, 70)) example_rng).isSome = true := by decide!
  have h0 : (run_generations insertion_fitness_sort source_params scenario_instance 0
      example_rng).isSome = true := by decide!
  have h1 : (run_generations insertion_fitness_sort source_params scenario_instance 1
      example_rng).isSome = true := by decide!
  ⟨⟨_, _, _, hp, (Option.some_get he).symm,
      (monotonic_elitism insertion_fitness_sort scenario_instance).1 _ _ example_rng _
        hp (Option.some_get he).symm⟩,
    ⟨_, _, (Option.some_get h0).symm, (Option.some_get h1).symm,
      (monotonic_elitism insertion_fitness_sort scenario_instance).2 0 example_rng _ _
        (Option.some_get h0).symm (Option.some_get h1).symm⟩⟩

/-- C7 (witness). Sortedness of the population for four individuals of the scenario instance. -/
theorem population_fitness_sorted_witness :
    (∃ r, evaluate_population insertion_fitness_sort scenario_instance small_population
        = some r ∧ ∀ (i j : Nat) (_ : i < j) (hj : j < r.length),
          (r.get ⟨j, hj⟩).2 ≤ (r.get ⟨i, by omega⟩).2) ∧
    (∃ r, evolve_population insertion_fitness_sort small_params scenario_instance
        small_population example_rng = some r ∧ FitnessSorted r.1) ∧
    (∃ r, run_generations insertion_fitness_sort small_params scenario_instance 2
        example_rng = some r ∧ FitnessSorted r.1) :=
  have T := population_fitness_sorted insertion_fitness_sort small_params scenario_instance
  have h1 : (evaluate_population insertion_fitness_sort scenario_instance
      small_population).isSome = true := by decide!
  have h2 : (evolve_population insertion_fitness_sort small_params scenario_instance
      small_population example_rng).isSome = true := by decide!
  have h3 : (run_generations insertion_fitness_sort small_params scenario_instance 2
      example_rng).isSome = true := by decide!
  ⟨⟨_, (Option.some_get h1).symm, T.1 _ _ (Option.some_get h1).symm⟩,
    ⟨_, (Option.some_get h2).symm, T.2.1 _ _ _ (Option.some_get h2).symm⟩,
    ⟨_, (Option.some_get h3).symm, T.2.2 _ _ _ (Option.some_get h3).symm⟩⟩

/-- C8 (witness). Sortedness of the keys for chromosomes of the scenario instance. -/
theorem chromosome_keys_sorted_witness :
    (∃ r, generate_population small_params scenario_instance [] example_rng = some r ∧
      ∀ ind ∈ r.1, KeysSorted ind.1) ∧
    (∃ r, random_chromosome scenario_instance example_rng = some r ∧ KeysSorted r.1) ∧
    (∃ r, crossover small_params scenario_instance scenario_chromosome
        [(8, 2), (3, 1), (2, 0)] example_rng = some r ∧ KeysSorted r.1) ∧
    (∃ r, mutate scenario_instance scenario_chromosome example_rng = some r ∧
      KeysSorted r.1) ∧
    ((∀ ind ∈ small_population, KeysSorted ind.1) ∧
      ∃ r, evolve_population insertion_fitness_sort small_params scenario_instance
        small_population example_rng = some r ∧ ∀ ind ∈ r.1, KeysSorted ind.1) ∧
    (∃ r, run_generations insertion_fitness_sort small_params scenario_instance 2
        example_rng = some r ∧ ∀ ind ∈ r.1, KeysSorted ind.1) :=
  have T := chromosome_keys_sorted insertion_fitness_sort small_params scenario_instance
  have h1 : (generate_population small_params scenario_instance [] example_rng).isSome
      = true := by decide!
  have h2 : (random_chromosome scenario_instance example_rng).isSome = true := by decide!
  have h3 : (crossover small_params scenario_instance scenario_chromosome
      [(8, 2), (3, 1), (2, 0)] example_rng).isSome = true := by decide!
  have h4 : (mutate scenario_instance scenario_chromosome example_rng).isSome = true := by
    decide!
  have hp : ∀ ind ∈ small_population, KeysSorted ind.1 := by decide!
  have h5 : (evolve_population insertion_fitness_sort small_params scenario_instance
      small_population example_rng).isSome = true := by decide!
  have h6 : (run_generations insertion_fitness_sort small_params scenario_instance 2
      example_rng).isSome = true := by decide!
  ⟨⟨_, (Option.some_get h1).symm, T.1 _ _ _ (Option.some_get h1).symm⟩,
    ⟨_, (Option.some_get h2).symm, T.2.1 _ _ (Option.some_get h2).symm⟩,
    ⟨_, (Option.some_get h3).symm, T.2.2.1 _ _ _ _ (Option.some_get h3).symm⟩,
    ⟨_, (Option.some_get h4).symm, T.2.2.2.1 _ _ _ (Option.some_get h4).symm⟩,
    ⟨hp, _, (Option.some_get h5).symm, T.2.2.2.2.1 _ _ _ hp (Option.some_get h5).symm⟩,
    ⟨_, (Option.some_get h6).symm, T.2.2.2.2.2 _ _ _ (Option.some_get h6).symm⟩⟩

/-- C9 (witness). Well-formedness for chromosomes of the scenario instance. -/
theorem chromosome_wellFormed_witness :
    (∃ r, generate_population small_params scenario_instance [] example_rng = some r ∧
      ∀ ind ∈ r.1, WellFormed scenario_instance ind.1) ∧
    ((∀ ind ∈ small_population, WellFormed scenario_instance ind.1) ∧
      ∃ r, evolve_population insertion_fitness_sort small_params scenario_instance
        small_population example_rng = some r ∧
        ∀ ind ∈ r.1, WellFormed scenario_instance ind.1) ∧
    (∃ r, run_generations insertion_fitness_sort small_params scenario_instance 2
        example_rng = some r ∧ ∀ ind ∈ r.1, WellFormed scenario_instance ind.1) ∧
    (WellFormed scenario_instance scenario_chromosome ∧
      WellFormed scenario_instance [(8, 2), (3, 1), (2, 0)] ∧
      ∃ r, crossover small_params scenario_instance scenario_chromosome
        [(8, 2), (3, 1), (2, 0)] example_rng = some r ∧ WellFormed scenario_instance r.1) ∧
    (∃ r, mutate scenario_instance scenario_chromosome example_rng = some r ∧
      WellFormed scenario_instance r.1) :=
  have T := chromosome_wellFormed insertion_fitness_sort small_params scenario_instance
  have h1 : (generate_population small_params scenario_instance [] example_rng).isSome
      = true := by decide!
  have hp : ∀ ind ∈ small_population, WellFormed scenario_instance ind.1 := by decide!
  have h2 : (evolve_population insertion_fitness_sort small_params scenario_instance
      small_population example_rng).isSome = true := by decide!
  have h3 : (run_generations insertion_fitness_sort small_params scenario_instance 2
      example_rng).isSome = true := by decide!
  have hw1 : WellFormed scenario_instance scenario_chromosome := by decide!
  have hw2 : WellFormed scenario_instance [(8, 2), (3, 1), (2, 0)] := by decide!
  have h4 : (crossover small_params scenario_instance scenario_chromosome
      [(8, 2), (3, 1), (2, 0)] example_rng).isSome = true := by decide!
  have h5 : (mutate scenario_instance scenario_chromosome example_rng).isSome = true := by
    decide!
  ⟨⟨_, (Option.some_get h1).symm, T.1 _ _ _ (Option.some_get h1).symm⟩,
    ⟨hp, _, (Option.some_get h2).symm, T.2.1 _ _ _ hp (Option.some_get h2).symm⟩,
    ⟨_, (Option.some_get h3).symm, T.2.2.1 _ _ _ (Option.some_get h3).symm⟩,
    ⟨hw1, hw2, _, (Option.some_get h4).symm,
      T.2.2.2.1 _ _ _ _ hw1 hw2 (Option.some_get h4).symm⟩,
    ⟨_, (Option.some_get h5).symm, T.2.2.2.2 _ _ _ hw1 (Option.some_get h5).symm⟩⟩

/-! ## Elite, evaluation and purity of the decoder -/

theorem decode_loop_indices (inst : Instance) (l₁ l₂ : Chromosome) (s : DecodeState)
    (h : indices l₁ = indices l₂) : decode_loop inst s l₁ = decode_loop inst s l₂ := by
  induction l₁ generalizing l₂ s with
  | nil =>
    cases l₂ with
    | nil => rfl
    | cons c l₂ => simp [indices] at h
  | cons a l₁ ih =>
    cases l₂ with
    | nil => simp [indices] at h
    | cons b l₂ =>
      simp only [indices, List.map_cons, List.cons.injEq] at h
      have hstep : decode_step inst s a = decode_step inst s b := by
        simp only [decode_step, h.1]
      simp only [decode_loop, hstep]
      cases decode_step inst s b with
      | none => rfl
      | some s' => exact ih l₂ s' h.2

theorem evaluate_all_congr (inst : Instance) (pop₁ pop₂ : Population)
    (h : pop₁.map Prod.fst = pop₂.map Prod.fst) :
    evaluate_all inst pop₁ = evaluate_all inst pop₂ := by
  induction pop₁ generalizing pop₂ with
  | nil =>
    cases pop₂ with
    | nil => rfl
    | cons b pop₂ => simp at h
  | cons a pop₁ ih =>
    cases pop₂ with
    | nil => simp at h
    | cons b pop₂ =>
      simp only [List.map_cons, List.cons.injEq] at h
      simp only [evaluate_all, h.1, ih pop₂ h.2]

theorem evaluate_all_append (inst : Instance) (a b ev : Population)
    (h : evaluate_all inst (a ++ b) = some ev) :
    ∃ ea eb, evaluate_all inst a = some ea ∧ evaluate_all inst b = some eb ∧ ev = ea ++ eb := by
  induction a generalizing ev with
  | nil => exact ⟨[], ev, rfl, by simpa using h, rfl⟩
  | cons x a ih =>
    simp only [List.cons_append, evaluate_all] at h ⊢
    split at h
    · exact absurd h (by simp)
    · rename_i res hdec
      split at h
      · exact absurd h (by simp)
      · rename_i rest hrest
        simp only [Option.some.injEq] at h
        obtain ⟨ea, eb, h1, h2, h3⟩ := ih rest hrest
        refine ⟨(x.1, res.2) :: ea, eb, ?_, h2, ?_⟩
        · simp [hdec, h1]
        · rw [← h, h3]; rfl

/-- Individuals whose fitness already is the value of their chromosome come out of
the evaluation loop as they went in. -/
theorem evaluate_all_fixed (inst : Instance) (a : Population)
    (h : ∀ ind ∈ a, ∃ sol, decode_chromosome inst ind.1 [] = some (sol, ind.2)) :
    evaluate_all inst a = some a := by
  induction a with
  | nil => rfl
  | cons x a ih =>
    obtain ⟨sol, hx⟩ := h x (by simp)
    simp only [evaluate_all, hx, ih (fun ind hi => h ind (by simp [hi]))]

/-- C11. Elite carried over unchanged: when `evolve_population` is applied to a
population that comes out of `evaluate_population`, each of the top
`floor(P * pe)` individuals is in the returned population with the same
chromosome and the same fitness (the elite is a sub-multiset of the result),
and the decoder returns that same fitness for its chromosome. -/
theorem elite_carried_over (srt : FitnessSort) (prm : Params) (inst : Instance)
    (pop₀ population : Population) (g : Rng) (r : Population × Rng) (hpe : 0 ≤ prm.pe)
    (heval : evaluate_population srt inst pop₀ = some population)
    (h : evolve_population srt prm inst population g = some r) :
    (population.take ⌊(prm.P : ℚ) * prm.pe⌋.toNat).Subperm r.1 ∧
      ∀ ind ∈ population.take ⌊(prm.P : ℚ) * prm.pe⌋.toNat,
        ind ∈ r.1 ∧ ∃ sol, decode_chromosome inst ind.1 [] = some (sol, ind.2) := by
  have hes : elite_size prm = ⌊(prm.P : ℚ) * prm.pe⌋ := by
    have h1 : 0 ≤ (prm.P : ℚ) * prm.pe := mul_nonneg (Nat.cast_nonneg _) hpe
    simp [elite_size, static_cast_int, h1]
  rw [← hes]
  obtain ⟨-, -, mutants, offspring, hev, -⟩ :=
    evolve_population_spec srt prm inst population g r h
  obtain ⟨ev, hall, hperm, -⟩ := evaluate_population_spec srt inst _ _ hev
  have hfit : ∀ ind ∈ population.take (elite_size prm).toNat,
      ∃ sol, decode_chromosome inst ind.1 [] = some (sol, ind.2) :=
    fun ind hind =>
      evaluate_population_fitness srt inst pop₀ population heval ind (List.mem_of_mem_take hind)
  rw [List.append_assoc] at hall
  obtain ⟨ea, eb, h1, -, h3⟩ := evaluate_all_append inst _ _ ev hall
  rw [evaluate_all_fixed inst _ hfit] at h1
  have hea : ea = population.take (elite_size prm).toNat := (Option.some.inj h1).symm
  have hsub : (population.take (elite_size prm).toNat).Subperm r.1 := by
    have : (population.take (elite_size prm).toNat).Sublist ev := by
      rw [h3, hea]
      exact List.sublist_append_left _ _
    exact this.subperm.trans hperm.symm.subperm
  exact ⟨hsub, fun ind hind => ⟨hsub.subset hind, hfit ind hind⟩⟩

/-- C12. Evaluate: the population that `evaluate_population` returns holds the same
chromosomes as the input, as a multiset, and the fitness of every individual
is the `total_value` that `decode_chromosome` returns for its chromosome; the
result does not depend on the fitness values carried before; with a loaded
catalog and valid item indices the function does return. -/
theorem evaluate_population_correct (srt : FitnessSort) (inst : Instance)
    (population : Population) :
    (∀ evaluated, evaluate_population srt inst population = some evaluated →
      (evaluated.map Prod.fst).Perm (population.map Prod.fst) ∧
      ∀ ind ∈ evaluated, ∃ sol, decode_chromosome inst ind.1 [] = some (sol, ind.2)) ∧
    (∀ other : Population, other.map Prod.fst = population.map Prod.fst →
      evaluate_population srt inst other = evaluate_population srt inst population) ∧
    (inst.N ≤ inst.items.length → (∀ ind ∈ population, ValidIndices inst ind.1) →
      ∃ evaluated, evaluate_population srt inst population = some evaluated) := by
  refine ⟨?_, ?_, ?_⟩
  · intro evaluated h
    obtain ⟨ev, hall, hperm, -⟩ := evaluate_population_spec srt inst _ _ h
    refine ⟨?_, evaluate_population_fitness srt inst _ _ h⟩
    rw [← (evaluate_all_spec inst population ev hall).1]
    exact hperm.map _
  · intro other hother
    simp only [evaluate_population, evaluate_all_congr inst other population hother]
  · intro hlen hvalid
    exact evaluate_population_total srt inst population hlen hvalid

/-- C20. Key independence of the decoder: two chromosomes that list the same item
indices in the same order decode to the same selection and the same
`total_value`, whatever their keys and whatever buffers are passed in. -/
theorem decode_chromosome_key_independent (inst : Instance) (c₁ c₂ : Chromosome)
    (buffer₁ buffer₂ : List Bool) (h : indices c₁ = indices c₂) :
    decode_chromosome inst c₁ buffer₁ = decode_chromosome inst c₂ buffer₂ := by
  simp only [decode_chromosome, decode_loop_indices inst c₁ c₂ _ h]

/-! ## Initial population -/

/-- A draw of `dist` lies in `[0.001, 0.999)`. -/
theorem dist_range (g : Rng) : 1 / 1000 ≤ (dist g).1 ∧ (dist g).1 < 999 / 1000 := by
  obtain ⟨h0, h1⟩ := next_unit_range g
  simp only [dist]
  constructor <;> linarith

set_option maxHeartbeats 4000000 in
/-- C15 (counterexample). A population of the program's size 100 in which every
individual decodes to the fitness 70: the `std::sort` of libstdc++ (introsort)
returns the tied individuals out of their input order; the first individual of
the result is the one that entered at position 62, and the individual that
entered first leaves at position 88. -/
theorem evaluate_population_not_stable :
    tied_population.length = source_params.P ∧
    evaluate_all scenario_instance tied_population = some tied_evaluated ∧
    tied_evaluated.map Prod.snd = List.replicate 100 70 ∧
    std_sort fitness_comp tied_evaluated = some (tied_order.map fun i => tied_individual i 70) ∧
    evaluate_population libstdcxx_fitness_sort scenario_instance tied_population =
      some (tied_order.map fun i => tied_individual i 70) ∧
    tied_order.take 3 = [62, 74, 73] ∧ tied_order.indexOf 0 = 88 ∧
    tied_order ≠ List.range 100 := by
  refine ⟨by decide!, by decide!, by decide!, by decide!, by decide!, by decide!, by decide!,
    by decide!⟩

/-- C15 (as amended). `evaluate_population` sorts by descending fitness with
`std::sort`, whose contract does not fix the order of ties: for any two
implementations of the sort the results are rearrangements of each other with
the same sequence of fitness values, non-increasing; they are the same
population when the decoded fitness values are pairwise distinct. -/
theorem evaluate_population_order (srt₁ srt₂ : FitnessSort) (inst : Instance)
    (population sorted₁ sorted₂ : Population)
    (h₁ : evaluate_population srt₁ inst population = some sorted₁)
    (h₂ : evaluate_population srt₂ inst population = some sorted₂) :
    sorted₁.Perm sorted₂ ∧ sorted₁.map Prod.snd = sorted₂.map Prod.snd ∧
      FitnessSorted sorted₁ ∧
      ((sorted₁.map Prod.snd).Nodup → sorted₁ = sorted₂) := by
  obtain ⟨ev₁, hall₁, hperm₁, hs₁⟩ := evaluate_population_spec srt₁ inst _ _ h₁
  obtain ⟨ev₂, hall₂, hperm₂, hs₂⟩ := evaluate_population_spec srt₂ inst _ _ h₂
  rw [hall₁] at hall₂
  have hev : ev₁ = ev₂ := Option.some.inj hall₂
  subst hev
  have hperm : sorted₁.Perm sorted₂ := hperm₁.trans hperm₂.symm
  refine ⟨hperm, ?_, hs₁, ?_⟩
  · have hm₁ : (sorted₁.map Prod.snd).Sorted (· ≥ ·) := by
      unfold FitnessSorted at hs₁
      exact List.pairwise_map.mpr hs₁
    have hm₂ : (sorted₂.map Prod.snd).Sorted (· ≥ ·) := by
      unfold FitnessSorted at hs₂
      exact List.pairwise_map.mpr hs₂
    exact List.eq_of_perm_of_sorted (hperm.map _) hm₁ hm₂
  · intro hnd
    have hnd₂ : (sorted₂.map Prod.snd).Nodup := (hperm.map _).nodup_iff.mp hnd
    have strict : ∀ l : Population, FitnessSorted l → (l.map Prod.snd).Nodup →
        l.Sorted (fun a b => a.2 > b.2) := by
      intro l hl hn
      have hne : l.Pairwise (fun a b => a.2 ≠ b.2) := List.pairwise_map.mp hn
      exact (List.Pairwise.and hl hne).imp (fun {a b} hab => lt_of_le_of_ne hab.1 (Ne.symm hab.2))
    haveI : IsAntisymm Individual (fun a b => a.2 > b.2) :=
      ⟨fun a b hab hba => absurd hab (not_lt.mpr (le_of_lt hba))⟩
    exact List.eq_of_perm_of_sorted hperm (strict _ hs₁ hnd) (strict _ hs₂ hnd₂)

set_option maxHeartbeats 4000000 in
/-- C15 (witness). The insertion sort and the sort of libstdc++ on the population of
100 tied individuals: the same fitness values in the same non-increasing order,
the individuals rearranged, and the two results differ. -/
theorem evaluate_population_order_witness :
    ∃ sorted₁ sorted₂,
      evaluate_population insertion_fitness_sort scenario_instance tied_population
        = some sorted₁ ∧
      evaluate_population libstdcxx_fitness_sort scenario_instance tied_population
        = some sorted₂ ∧
      sorted₁ ≠ sorted₂ ∧
      sorted₁.Perm sorted₂ ∧ sorted₁.map Prod.snd = sorted₂.map Prod.snd ∧
      FitnessSorted sorted₁ ∧ ((sorted₁.map Prod.snd).Nodup → sorted₁ = sorted₂) :=
  have h₁ : evaluate_population insertion_fitness_sort scenario_instance tied_population =
      some tied_evaluated := by decide!
  have h₂ : evaluate_population libstdcxx_fitness_sort scenario_instance tied_population =
      some (tied_order.map fun i => tied_individual i 70) := by decide!
  have hne : tied_evaluated ≠ tied_order.map fun i => tied_individual i 70 := by decide!
  ⟨_, _, h₁, h₂, hne,
    evaluate_population_order insertion_fitness_sort libstdcxx_fitness_sort scenario_instance
      tied_population _ _ h₁ h₂⟩

/-! ## The structure of crossover -/

theorem getElem?_set_key (offspring : Chromosome) (i j : Nat) (key : ℚ) :
    (set_key offspring i key)[j]? =
      if i = j then (offspring[j]?).map (fun c => (key, c.2)) else offspring[j]? := by
  unfold set_key
  rw [List.getElem?_modify]
  by_cases h : i = j
  · simp [h]
  · simp [h]

theorem length_set_key (offspring : Chromosome) (i : Nat) (key : ℚ) :
    (set_key offspring i key).length = offspring.length := by
  simp [set_key]

theorem crossover_loop_cons (prm : Params) (elite non_elite : Chromosome) (i : Nat)
    (is : List Nat) (offspring : Chromosome) (g : Rng) :
    crossover_loop prm elite non_elite (i :: is) offspring g =
      (inherited_key prm elite non_elite (dist g).1 i).bind fun key =>
        crossover_loop prm elite non_elite is (set_key offspring i key) (dist g).2 := by
  simp only [crossover_loop, inherited_key]
  split
  · cases elite[i]? <;> simp
  · cases non_elite[i]? <;> simp

/-- What the loop of `crossover` leaves in the offspring: the length is kept,
positions that the loop does not visit are untouched, and the position visited
at the `k`-th iteration keeps its item index and receives the inherited key of
the `k`-th draw. -/
theorem crossover_loop_at (prm : Params) (elite non_elite : Chromosome) (is : List Nat)
    (offspring : Chromosome) (g : Rng) (r : Chromosome × Rng)
    (h : crossover_loop prm elite non_elite is offspring g = some r) (hnd : is.Nodup) :
    r.1.length = offspring.length ∧
    (∀ i, i ∉ is → r.1[i]? = offspring[i]?) ∧
    ∀ k i, is[k]? = some i → ∀ o, offspring[i]? = some o →
      ∃ key, inherited_key prm elite non_elite (dist (skip_draws g k)).1 i = some key ∧
        r.1[i]? = some (key, o.2) := by
  induction is generalizing offspring g with
  | nil =>
    simp only [crossover_loop, Option.some.injEq] at h
    subst h
    exact ⟨rfl, fun _ _ => rfl, fun k i hk => by simp at hk⟩
  | cons i is ih =>
    rw [crossover_loop_cons] at h
    cases hkey : inherited_key prm elite non_elite (dist g).1 i with
    | none => simp [hkey] at h
    | some key =>
      simp only [hkey, Option.some_bind] at h
      obtain ⟨hi, hnd'⟩ := List.nodup_cons.mp hnd
      obtain ⟨h1, h2, h3⟩ := ih _ _ h hnd'
      refine ⟨by rw [h1, length_set_key], ?_, ?_⟩
      · intro j hj
        simp only [List.mem_cons, not_or] at hj
        rw [h2 j hj.2, getElem?_set_key, if_neg (Ne.symm hj.1)]
      · intro k j hk o ho
        cases k with
        | zero =>
          simp only [List.getElem?_cons_zero, Option.some.injEq] at hk
          subst hk
          refine ⟨key, hkey, ?_⟩
          rw [h2 i hi, getElem?_set_key, if_pos rfl, ho]
          rfl
        | succ k =>
          simp only [List.getElem?_cons_succ] at hk
          have hne : i ≠ j := by
            intro heq
            subst heq
            exact hi (List.getElem?_mem hk)
          have := h3 k j hk o (by rw [getElem?_set_key, if_neg hne]; exact ho)
          exact this

/-- The offspring before the final sort, for a cut point `c` in `[1, N - 1]` and
parents of `N` genes: the genes of the elite parent before the cut; from the
cut on the item index of the elite parent with the key of the elite parent when
the draw of the position is below `rhoe`, of the non-elite parent otherwise. -/
theorem crossover_loop_range (prm : Params) (elite non_elite : Chromosome) (n c : Nat)
    (g₁ : Rng) (he : elite.length = n) (hne : non_elite.length = n) (hc : c ≤ n) :
    ∃ r, crossover_loop prm elite non_elite (List.range' c (elite.length - c)) elite g₁
        = some r ∧
      r.1.length = n ∧
      (∀ i, i < c → r.1[i]? = elite[i]?) ∧
      (∀ i, c ≤ i → i < n → ∃ e ne, elite[i]? = some e ∧ non_elite[i]? = some ne ∧
        r.1[i]? = some
          (if (dist (skip_draws g₁ (i - c))).1 < prm.rhoe then e.1 else ne.1, e.2)) := by
  obtain ⟨r, hr⟩ := crossover_loop_total prm elite non_elite
    (List.range' c (elite.length - c)) elite g₁
    (fun i hi => by
      have := List.mem_range'_1.mp hi
      omega)
  obtain ⟨h1, h2, h3⟩ := crossover_loop_at prm elite non_elite _ elite g₁ r hr
    (List.nodup_range' c _)
  refine ⟨r, hr, by rw [h1, he], ?_, ?_⟩
  · intro i hi
    exact h2 i (by
      intro hmem
      have := List.mem_range'_1.mp hmem
      omega)
  · intro i hci hin
    have hie : i < elite.length := by omega
    have hine : i < non_elite.length := by omega
    have hk : (List.range' c (elite.length - c))[i - c]? = some i := by
      rw [List.getElem?_range' c 1 (by omega)]
      congr 1
      omega
    obtain ⟨key, hkey, hget⟩ := h3 (i - c) i hk elite[i] (List.getElem?_eq_getElem hie)
    refine ⟨elite[i], non_elite[i], List.getElem?_eq_getElem hie,
      List.getElem?_eq_getElem hine, ?_⟩
    rw [hget]
    simp only [inherited_key, List.getElem?_eq_getElem hie, List.getElem?_eq_getElem hine,
      Option.map_some'] at hkey
    split at hkey
    · rename_i hlt
      rw [if_pos hlt, ← Option.some.inj hkey]
    · rename_i hlt
      rw [if_neg hlt, ← Option.some.inj hkey]

/-- The function `crossover` draws a cut point in `[1, N - 1]`, runs the loop from
there and sorts what the loop leaves. -/
theorem crossover_eq (prm : Params) (inst : Instance) (elite non_elite : Chromosome)
    (g : Rng) (hN : 2 ≤ inst.N) (he : elite.length = inst.N)
    (hne : non_elite.length = inst.N) :
    ∃ (cut : Nat) (g₁ : Rng) (r : Chromosome × Rng),
      uniform_int_distribution 1 ((inst.N : Int) - 1) g = some ((cut : Int), g₁) ∧
      1 ≤ cut ∧ cut ≤ inst.N - 1 ∧
      crossover_loop prm elite non_elite (List.range' cut (elite.length - cut)) elite g₁
        = some r ∧
      crossover prm inst elite non_elite g = some (sort_descending r.1, r.2) := by
  obtain ⟨cut, g₁, hcut, h1, h2⟩ :=
    uniform_int_distribution_range 1 ((inst.N : Int) - 1) g (by omega)
  obtain ⟨r, hr, -⟩ := crossover_loop_range prm elite non_elite inst.N cut.toNat g₁ he hne
    (by omega)
  have hcast : ((cut.toNat : Nat) : Int) = cut := Int.toNat_of_nonneg (by omega)
  refine ⟨cut.toNat, g₁, r, by rw [hcast]; exact hcut, by omega, by omega, hr, ?_⟩
  simp only [crossover, hcut, hr]

/-- C17. Biased crossover structure: for parents of `N ≥ 2` genes and every cut
point `c` with `1 ≤ c ≤ N - 1`, the offspring before the final sort has at
every position `i < c` the gene of the elite parent, and at every position
`i ≥ c` the key of the elite parent at `i` when the draw of that position is
below `rhoe` and the key of the non-elite parent at `i` otherwise (with the
item index of the elite parent); `crossover` draws such a cut point and returns
that sequence sorted in descending key order. -/
theorem crossover_structure (prm : Params) (inst : Instance) (elite non_elite : Chromosome)
    (g : Rng) (hN : 2 ≤ inst.N) (he : elite.length = inst.N)
    (hne : non_elite.length = inst.N) :
    (∀ (c : Nat) (g₁ : Rng), 1 ≤ c → c ≤ inst.N - 1 →
      ∃ r, crossover_loop prm elite non_elite (List.range' c (elite.length - c)) elite g₁
          = some r ∧
        r.1.length = inst.N ∧
        (∀ i, i < c → r.1[i]? = elite[i]?) ∧
        (∀ i, c ≤ i → i < inst.N → ∃ e ne, elite[i]? = some e ∧ non_elite[i]? = some ne ∧
          r.1[i]? = some
            (if (dist (skip_draws g₁ (i - c))).1 < prm.rhoe then e.1 else ne.1, e.2))) ∧
    (∃ (cut : Nat) (g₁ : Rng) (r : Chromosome × Rng),
      uniform_int_distribution 1 ((inst.N : Int) - 1) g = some ((cut : Int), g₁) ∧
      1 ≤ cut ∧ cut ≤ inst.N - 1 ∧
      crossover_loop prm elite non_elite (List.range' cut (elite.length - cut)) elite g₁
        = some r ∧
      crossover prm inst elite non_elite g = some (sort_descending r.1, r.2) ∧
      (sort_descending r.1).Perm r.1 ∧ KeysSorted (sort_descending r.1)) := by
  refine ⟨?_, ?_⟩
  · intro c g₁ _ hc
    exact crossover_loop_range prm elite non_elite inst.N c g₁ he hne (by omega)
  · obtain ⟨cut, g₁, r, h1, h2, h3, h4, h5⟩ := crossover_eq prm inst elite non_elite g hN he hne
    exact ⟨cut, g₁, r, h1, h2, h3, h4, h5, sort_descending_perm _, sort_descending_keys _⟩

/-- C16 (as amended). For well-formed parents of `N ≥ 2` genes, `crossover` returns
a well-formed offspring in which every gene carries the item index of a gene of
the elite parent and, as its key, the key of that elite gene or the key that
the non-elite parent has at the same position. -/
theorem crossover_gene_origin (prm : Params) (inst : Instance) (elite non_elite : Chromosome)
    (g : Rng) (hN : 2 ≤ inst.N) (he : WellFormed inst elite)
    (hne : WellFormed inst non_elite) :
    ∃ r, crossover prm inst elite non_elite g = some r ∧ WellFormed inst r.1 ∧
      ∀ c ∈ r.1, ∃ (i : Nat) (e : Gene), elite[i]? = some e ∧ c.2 = e.2 ∧
        (c.1 = e.1 ∨ ∃ ne : Gene, non_elite[i]? = some ne ∧ c.1 = ne.1) := by
  obtain ⟨cut, g₁, r, -, -, hcut, hloop, hcross⟩ :=
    crossover_eq prm inst elite non_elite g hN he.1 hne.1
  obtain ⟨r', hr', hlen, hbefore, hafter⟩ :=
    crossover_loop_range prm elite non_elite inst.N cut g₁ he.1 hne.1 (by omega)
  rw [hloop] at hr'
  have hrr : r = r' := Option.some.inj hr'
  subst hrr
  refine ⟨_, hcross, ?_, ?_⟩
  · exact wellFormed_of_perm inst (crossover_spec prm inst elite non_elite g _ hcross).1 he
  · intro c hc
    have hc' : c ∈ r.1 := (sort_descending_perm r.1).subset hc
    obtain ⟨i, hi⟩ := List.mem_iff_getElem?.mp hc'
    have hil : i < inst.N := by
      rw [← hlen]
      exact (List.getElem?_eq_some.mp hi).1
    by_cases hic : i < cut
    · rw [hbefore i hic] at hi
      exact ⟨i, c, hi, rfl, Or.inl rfl⟩
    · obtain ⟨e, ne, h1, h2, h3⟩ := hafter i (by omega) hil
      rw [hi] at h3
      have hceq := Option.some.inj h3
      refine ⟨i, e, h1, by rw [hceq], ?_⟩
      rw [hceq]
      simp only
      split
      · exact Or.inl rfl
      · exact Or.inr ⟨ne, h2, rfl⟩

/-! ## Gene identity under crossover and mutation -/

/-- C16 (counterexample). The offspring of two well-formed parents holds the gene
`(2, 0)`: the key 2 of the non-elite parent's gene `(2, 1)` with the item index 0
of the elite parent's gene `(1, 0)`; neither parent has the gene `(2, 0)`. -/
theorem crossover_gene_not_from_parents :
    WellFormed scenario_instance scenario_chromosome ∧
    WellFormed scenario_instance second_parent ∧
    (crossover source_params scenario_instance scenario_chromosome second_parent
      high_rng).map Prod.fst = some [(9, 1), (4, 2), (2, 0)] ∧
    ((2, 0) : Gene) ∉ scenario_chromosome ∧ ((2, 0) : Gene) ∉ second_parent := by
  decide!

/-- C16 (witness). The amended statement for the two parents of the counterexample. -/
theorem crossover_gene_origin_witness :
    (2 ≤ scenario_instance.N ∧ WellFormed scenario_instance scenario_chromosome ∧
      WellFormed scenario_instance second_parent) ∧
    ∃ r, crossover source_params scenario_instance scenario_chromosome second_parent
        high_rng = some r ∧ WellFormed scenario_instance r.1 ∧
      ∀ c ∈ r.1, ∃ (i : Nat) (e : Gene), scenario_chromosome[i]? = some e ∧ c.2 = e.2 ∧
        (c.1 = e.1 ∨ ∃ ne : Gene, second_parent[i]? = some ne ∧ c.1 = ne.1) :=
  have h1 : 2 ≤ scenario_instance.N := by decide
  have h2 : WellFormed scenario_instance scenario_chromosome := by decide!
  have h3 : WellFormed scenario_instance second_parent := by decide!
  ⟨⟨h1, h2, h3⟩,
    crossover_gene_origin source_params scenario_instance scenario_chromosome second_parent
      high_rng h1 h2 h3⟩

/-- C17 (witness). The structure of crossover for two parents of the
scenario instance. -/
theorem crossover_structure_witness :
    (2 ≤ scenario_instance.N ∧ scenario_chromosome.length = scenario_instance.N ∧
      second_parent.length = scenario_instance.N) ∧
    (∃ (cut : Nat) (g₁ : Rng) (r : Chromosome × Rng),
      uniform_int_distribution 1 ((scenario_instance.N : Int) - 1) high_rng
        = some ((cut : Int), g₁) ∧
      1 ≤ cut ∧ cut ≤ scenario_instance.N - 1 ∧
      crossover_loop source_params scenario_chromosome second_parent
        (List.range' cut (scenario_chromosome.length - cut)) scenario_chromosome g₁ = some r ∧
      crossover source_params scenario_instance scenario_chromosome second_parent high_rng
        = some (sort_descending r.1, r.2) ∧
      (sort_descending r.1).Perm r.1 ∧ KeysSorted (sort_descending r.1)) ∧
    (∃ r, crossover_loop source_params scenario_chromosome second_parent
          (List.range' 1 (scenario_chromosome.length - 1)) scenario_chromosome high_rng
          = some r ∧
        r.1.length = scenario_instance.N ∧
        (∀ i, i < 1 → r.1[i]? = scenario_chromosome[i]?) ∧
        (∀ i, 1 ≤ i → i < scenario_instance.N → ∃ e ne,
          scenario_chromosome[i]? = some e ∧ second_parent[i]? = some ne ∧
          r.1[i]? = some
            (if (dist (skip_draws high_rng (i - 1))).1 < source_params.rhoe then e.1
              else ne.1, e.2))) :=
  have h1 : 2 ≤ scenario_instance.N := by decide
  have h2 : scenario_chromosome.length = scenario_instance.N := by decide
  have h3 : second_parent.length = scenario_instance.N := by decide
  ⟨⟨h1, h2, h3⟩,
    (crossover_structure source_params scenario_instance scenario_chromosome second_parent
      high_rng h1 h2 h3).2,
    (crossover_structure source_params scenario_instance scenario_chromosome second_parent
      high_rng h1 h2 h3).1 1 high_rng (by decide) (by decide)⟩

/-! ## Greedy maximality -/

theorem selected_weight_nonneg (items : List Item) (sol : List Bool)
    (hw : ∀ it ∈ items, 0 ≤ it.weight) : 0 ≤ selected_weight items sol := by
  induction items generalizing sol with
  | nil => simp [selected_weight]
  | cons a items ih =>
    cases sol with
    | nil => simp [selected_weight]
    | cons b sol =>
      have h0 := hw a (by simp)
      have h1 := ih sol (fun it h => hw it (by simp [h]))
      simp only [selected_weight]
      split <;> omega

/-- The loop of the decoder with non-negative `int` weights and `0 ≤ C`: the
weight of the flagged items never decreases; as long as it is within `C`
the variable `total_weight` holds it; and every gene that the loop has passed
and left unflagged does not fit on top of the flagged items. -/
theorem decode_loop_maximal (inst : Instance) (hlen : inst.items.length = inst.N)
    (hC : 0 ≤ inst.C ∧ inst.C ≤ 2147483647)
    (hw : ∀ it ∈ inst.items, 0 ≤ it.weight ∧ it.weight ≤ 2147483647)
    (l : Chromosome) (s : DecodeState) (hs : s.solution.length = inst.N)
    (hph : selected_weight inst.items s.solution ≤ inst.C →
      s.total_weight = selected_weight inst.items s.solution)
    (hvalid : ValidIndices inst l) (hnodup : (indices l).Nodup)
    (hfresh : ∀ c ∈ l, s.solution[c.2.toNat]? = some false) :
    ∃ s', decode_loop inst s l = some s' ∧ s'.solution.length = inst.N ∧
      (selected_weight inst.items s'.solution ≤ inst.C →
        s'.total_weight = selected_weight inst.items s'.solution) ∧
      selected_weight inst.items s.solution ≤ selected_weight inst.items s'.solution ∧
      ∀ c ∈ l, ∀ it, inst.items[c.2.toNat]? = some it →
        s'.solution[c.2.toNat]? = some false →
        inst.C < it.weight + selected_weight inst.items s'.solution := by
  induction l generalizing s with
  | nil => exact ⟨s, rfl, hs, hph, le_refl _, by simp⟩
  | cons c l ih =>
    have hc := hvalid c (by simp)
    have hi : c.2.toNat < inst.items.length := by omega
    have hit : inst.items[c.2.toNat]? = some inst.items[c.2.toNat] :=
      List.getElem?_eq_getElem hi
    have hstep := decode_step_eq inst s c inst.items[c.2.toNat] hc.1 hit (by omega)
    have hrest : ValidIndices inst l := fun c' h' => hvalid c' (by simp [h'])
    simp only [indices, List.map_cons, List.nodup_cons] at hnodup
    have hwc := hw inst.items[c.2.toNat] (List.getElem_mem _)
    have hS0 := selected_weight_nonneg inst.items s.solution (fun it h => (hw it h).1)
    have hcl : (c.2.toNat : Int) ∉ indices l := by
      rw [Int.toNat_of_nonneg hc.1]
      exact hnodup.1
    simp only [decode_loop]
    split at hstep
    · rename_i htest
      rw [hstep]
      have hset := selected_weight_set inst.items s.solution c.2.toNat _ hit
        (hfresh c (by simp))
      obtain ⟨s', hrun, hl', hph', hmono, hmax⟩ := ih
        { solution := s.solution.set c.2.toNat true
          total_weight := wrap32 (s.total_weight + inst.items[c.2.toNat].weight)
          total_value := wrap32 (s.total_value + inst.items[c.2.toNat].value) }
        (by simpa using hs)
        (by
          intro hle
          simp only at hle ⊢
          rw [hset] at hle ⊢
          have := hph (by omega)
          rw [this]
          exact wrap32_eq_self ⟨by omega, by omega⟩)
        hrest hnodup.2
        (by
          intro c' hc'
          have hne : c'.2 ≠ c.2 := by
            intro heq
            exact hnodup.1 (by rw [← heq]; exact List.mem_map_of_mem _ hc')
          have hc'v := hvalid c' (by simp [hc'])
          simp only
          rw [List.getElem?_set_ne (by omega)]
          exact hfresh c' (by simp [hc']))
      refine ⟨s', hrun, hl', hph', ?_, ?_⟩
      · simp only at hmono
        rw [hset] at hmono
        omega
      · intro c' hc' it hit' hflag
        rcases List.mem_cons.mp hc' with rfl | hc'
        · exfalso
          rw [(decode_loop_frame inst l _ s' hrun).2 _ hcl] at hflag
          simp only at hflag
          rw [List.getElem?_set_self (by omega)] at hflag
          simp at hflag
        · exact hmax c' hc' it hit' hflag
    · rename_i htest
      rw [hstep]
      obtain ⟨s', hrun, hl', hph', hmono, hmax⟩ := ih s hs hph hrest hnodup.2
        (fun c' hc' => hfresh c' (by simp [hc']))
      refine ⟨s', hrun, hl', hph', hmono, ?_⟩
      intro c' hc' it hit' hflag
      rcases List.mem_cons.mp hc' with rfl | hc'
      · rw [hit] at hit'
        have hiteq := Option.some.inj hit'
        rw [← hiteq]
        by_cases hle : selected_weight inst.items s.solution ≤ inst.C
        · have htw := hph hle
          rw [htw] at htest
          unfold wrap32 at htest
          omega
        · omega
      · exact hmax c' hc' it hit' hflag

/-- C19. Greedy maximality: with non-negative `int` weights, an `int` capacity
`C ≥ 0` and a chromosome that holds each item index exactly once, the selection
that `decode_chromosome` returns cannot be extended: for every item that is not
flagged, its weight plus the weight of the flagged items exceeds `C`. -/
theorem decode_chromosome_maximal (inst : Instance) (chromosome : Chromosome)
    (solution : List Bool) (hlen : inst.items.length = inst.N)
    (hC : 0 ≤ inst.C) (hCint : InInt32 inst.C)
    (hw : ∀ it ∈ inst.items, 0 ≤ it.weight ∧ InInt32 it.weight)
    (hwf : WellFormed inst chromosome) :
    ∃ sol tv, decode_chromosome inst chromosome solution = some (sol, tv) ∧
      sol.length = inst.N ∧
      ∀ (j : Nat) (it : Item), inst.items[j]? = some it → sol[j]? = some false →
        inst.C < it.weight + selected_weight inst.items sol := by
  obtain ⟨s', hrun, hl', -, -, hmax⟩ := decode_loop_maximal inst hlen ⟨hC, hCint.2⟩
    (fun it h => ⟨(hw it h).1, (hw it h).2.2⟩) chromosome (decode_init inst)
    (by simp [decode_init])
    (fun _ => by
      have := (decode_init_inv inst hC).2.1
      exact this)
    hwf.valid hwf.nodup (decode_init_fresh inst chromosome hwf.valid)
  refine ⟨s'.solution, s'.total_value, by simp [decode_chromosome, hrun], hl', ?_⟩
  intro j it hit hflag
  have hj : j < inst.N := by
    rw [← hlen]
    exact (List.getElem?_eq_some.mp hit).1
  have hmem : (j : Int) ∈ indices chromosome := List.count_pos_iff.mp (by
    have := hwf.2 j hj
    omega)
  obtain ⟨c, hc, hcj⟩ := List.mem_map.mp hmem
  have htn : c.2.toNat = j := by omega
  exact hmax c hc it (by rw [htn]; exact hit) (by rw [htn]; exact hflag)

/-- C19 (witness). Maximality of the selection of the scenario: item 0 is left
out and does not fit. -/
theorem decode_chromosome_maximal_witness :
    ∃ sol tv, decode_chromosome scenario_instance scenario_chromosome [] = some (sol, tv) ∧
      sol.length = scenario_instance.N ∧
      ∀ (j : Nat) (it : Item), scenario_instance.items[j]? = some it →
        sol[j]? = some false →
        scenario_instance.C < it.weight + selected_weight scenario_instance.items sol :=
  decode_chromosome_maximal scenario_instance scenario_chromosome [] (by decide) (by decide)
    (by decide) (by decide) (by decide!)

/-- C20 (witness). Two chromosomes with the item order 1, 2, 0 and different keys. -/
theorem decode_chromosome_key_independent_witness :
    indices scenario_chromosome = indices [(3, 1), (2, 2), (1, 0)] ∧
    decode_chromosome scenario_instance scenario_chromosome [] =
      decode_chromosome scenario_instance [(3, 1), (2, 2), (1, 0)] [true] :=
  have h : indices scenario_chromosome = indices [(3, 1), (2, 2), (1, 0)] := by decide
  ⟨h, decode_chromosome_key_independent scenario_instance scenario_chromosome
    [(3, 1), (2, 2), (1, 0)] [] [true] h⟩

/-! ## Further claims at concrete inputs -/

/-- C11 (witness). The two elite individuals of an evaluated population of four. -/
theorem elite_carried_over_witness :
    0 ≤ small_params.pe ∧
    evaluate_population insertion_fitness_sort scenario_instance small_population =
      some evaluated_population ∧
    ∃ r, evolve_population insertion_fitness_sort small_params scenario_instance
        evaluated_population example_rng = some r ∧
      (evaluated_population.take ⌊(small_params.P : ℚ) * small_params.pe⌋.toNat).Subperm r.1 ∧
      ∀ ind ∈ evaluated_population.take ⌊(small_params.P : ℚ) * small_params.pe⌋.toNat,
        ind ∈ r.1 ∧ ∃ sol, decode_chromosome scenario_instance ind.1 [] = some (sol, ind.2) :=
  have hpe : 0 ≤ small_params.pe := by decide!
  have heval : evaluate_population insertion_fitness_sort scenario_instance small_population =
      some evaluated_population := by decide!
  have h : (evolve_population insertion_fitness_sort small_params scenario_instance
      evaluated_population example_rng).isSome = true := by decide!
  ⟨hpe, heval, _, (Option.some_get h).symm,
    elite_carried_over insertion_fitness_sort small_params scenario_instance small_population
      evaluated_population example_rng _ hpe heval (Option.some_get h).symm⟩

/-- C12 (witness). Evaluation of a population whose fitness values are stale. -/
theorem evaluate_population_correct_witness :
    (evaluate_population insertion_fitness_sort scenario_instance small_population =
        some evaluated_population ∧
      (evaluated_population.map Prod.fst).Perm (small_population.map Prod.fst) ∧
      ∀ ind ∈ evaluated_population,
        ∃ sol, decode_chromosome scenario_instance ind.1 [] = some (sol, ind.2)) ∧
    (evaluated_population.map Prod.fst = small_population.map Prod.fst ∧
      evaluate_population insertion_fitness_sort scenario_instance evaluated_population =
        evaluate_population insertion_fitness_sort scenario_instance small_population) ∧
    (scenario_instance.N ≤ scenario_instance.items.length ∧
      (∀ ind ∈ small_population, ValidIndices scenario_instance ind.1) ∧
      ∃ evaluated, evaluate_population insertion_fitness_sort scenario_instance
        small_population = some evaluated) :=
  have T := evaluate_population_correct insertion_fitness_sort scenario_instance
    small_population
  have heval : evaluate_population insertion_fitness_sort scenario_instance small_population =
      some evaluated_population := by decide!
  have hfst : evaluated_population.map Prod.fst = small_population.map Prod.fst := by decide!
  have hlen : scenario_instance.N ≤ scenario_instance.items.length := by decide
  have hvalid : ∀ ind ∈ small_population, ValidIndices scenario_instance ind.1 := by
    unfold ValidIndices; decide!
  ⟨⟨heval, T.1 _ heval⟩, ⟨hfst, T.2.1 _ hfst⟩, ⟨hlen, hvalid, T.2.2 hlen hvalid⟩⟩

/-- The loop of `mutate`, position by position: the gene at position `i` is what
the iteration makes of the old gene with the draws that the stream holds when
the loop reaches position `i`; the stream is left in the state after the last
gene. -/
theorem mutate_loop_at (inst : Instance) (chromosome : Chromosome) (g : Rng)
    (r : Chromosome × Rng) (h : mutate_loop inst chromosome g = some r) :
    r.1.length = chromosome.length ∧
    r.2 = mutate_stream g chromosome chromosome.length ∧
    ∀ (i : Nat) (a : Gene), chromosome[i]? = some a →
      ∃ b : Gene, r.1[i]? = some b ∧
        MutatedGene inst (mutation_prob (mutate_stream g chromosome i)).1
          (dist (mutation_prob (mutate_stream g chromosome i)).2).1 a b := by
  induction chromosome generalizing g r with
  | nil =>
    simp only [mutate_loop, Option.some.injEq] at h
    rw [← h]
    exact ⟨rfl, rfl, fun i a hi => by simp at hi⟩
  | cons c cs ih =>
    simp only [mutate_loop] at h
    split at h
    · rename_i hlt
      split at h
      · rename_i hidx
        split at h
        · exact absurd h (by simp)
        · rename_i it hit
          split at h
          · exact absurd h (by simp)
          · rename_i _ cs' g' hrec
            simp only [Option.some.injEq] at h
            obtain ⟨h1, h2, h3⟩ := ih _ _ hrec
            rw [← h]
            refine ⟨by simp [h1], ?_, ?_⟩
            · simp only [List.length_cons, mutate_stream, if_pos hlt]
              exact h2
            · intro i a hi
              cases i with
              | zero =>
                simp only [List.getElem?_cons_zero, Option.some.injEq] at hi
                subst hi
                refine ⟨((dist (mutation_prob g).2).1 * it.value_per_weight, c.2),
                  by simp, ?_⟩
                unfold MutatedGene
                rw [show mutate_stream g (c :: cs) 0 = g from rfl]
                refine ⟨rfl, ?_⟩
                rw [if_pos hlt]
                exact ⟨hidx, it, hit, rfl⟩
              | succ i =>
                simp only [List.getElem?_cons_succ] at hi
                obtain ⟨b, hb, hrel⟩ := h3 i a hi
                refine ⟨b, by simpa using hb, ?_⟩
                simp only [mutate_stream, if_pos hlt]
                exact hrel
      · exact absurd h (by simp)
    · rename_i hlt
      split at h
      · exact absurd h (by simp)
      · rename_i _ cs' g' hrec
        simp only [Option.some.injEq] at h
        obtain ⟨h1, h2, h3⟩ := ih _ _ hrec
        rw [← h]
        refine ⟨by simp [h1], ?_, ?_⟩
        · simp only [List.length_cons, mutate_stream, if_neg hlt]
          exact h2
        · intro i a hi
          cases i with
          | zero =>
            simp only [List.getElem?_cons_zero, Option.some.injEq] at hi
            subst hi
            refine ⟨c, by simp, ?_⟩
            unfold MutatedGene
            rw [show mutate_stream g (c :: cs) 0 = g from rfl]
            refine ⟨rfl, ?_⟩
            rw [if_neg hlt]
          | succ i =>
            simp only [List.getElem?_cons_succ] at hi
            obtain ⟨b, hb, hrel⟩ := h3 i a hi
            refine ⟨b, by simpa using hb, ?_⟩
            simp only [mutate_stream, if_neg hlt]
            exact hrel

/-- C18. Mutation pass: `mutate` goes over the genes once, front to back. The gene
at position `i` keeps its item index; with `m` the draw of `mutation_prob` and
`u` the following value of `dist` in the stream at that position, the key is
kept when `m ≥ 0.05` and is replaced by `u * density` of the gene's own item
when `m < 0.05`; `0 ≤ m < 1` and `0.001 ≤ u < 0.999`. The result is these
genes sorted in descending key order. With a loaded catalog and valid item
indices the function does return. -/
theorem mutate_pass (inst : Instance) (chromosome : Chromosome) (g : Rng) :
    (∀ r, mutate inst chromosome g = some r →
      ∃ mutated : Chromosome,
        mutate_loop inst chromosome g = some (mutated, r.2) ∧
        mutated.length = chromosome.length ∧
        (∀ (i : Nat) (a : Gene), chromosome[i]? = some a →
          ∃ b : Gene, mutated[i]? = some b ∧
            MutatedGene inst (mutation_prob (mutate_stream g chromosome i)).1
              (dist (mutation_prob (mutate_stream g chromosome i)).2).1 a b) ∧
        r.2 = mutate_stream g chromosome chromosome.length ∧
        r.1 = sort_descending mutated ∧ r.1.Perm mutated ∧ KeysSorted r.1) ∧
    (∀ g' : Rng, (0 ≤ (mutation_prob g').1 ∧ (mutation_prob g').1 < 1) ∧
      (1 / 1000 ≤ (dist g').1 ∧ (dist g').1 < 999 / 1000)) ∧
    (inst.N ≤ inst.items.length → ValidIndices inst chromosome →
      ∃ r, mutate inst chromosome g = some r) := by
  refine ⟨?_, fun g' => ⟨next_unit_range g', dist_range g'⟩, mutate_total inst chromosome g⟩
  intro r h
  unfold mutate at h
  split at h
  · exact absurd h (by simp)
  · rename_i mutated g' hloop
    simp only [Option.some.injEq] at h
    rw [← h]
    obtain ⟨h1, h2, h3⟩ := mutate_loop_at inst chromosome g _ hloop
    exact ⟨mutated, hloop, h1, h3, h2, rfl, sort_descending_perm _, sort_descending_keys _⟩

/-- C18 (witness). A pass over the scenario chromosome in which every mutation draw
is below 0.05: all three keys are replaced, by `u * density` with the values
`u = 0.01098, 0.03094, 0.0509` and the densities `10, 5, 2`, and the genes are
sorted again. -/
theorem mutate_pass_witness :
    (scenario_instance.N ≤ scenario_instance.items.length ∧
      ValidIndices scenario_instance scenario_chromosome) ∧
    (mutate_loop scenario_instance scenario_chromosome low_rng).map Prod.fst =
      some [(549 / 5000, 1), (1547 / 10000, 2), (509 / 5000, 0)] ∧
    (mutate scenario_instance scenario_chromosome low_rng).map Prod.fst =
      some [(1547 / 10000, 2), (549 / 5000, 1), (509 / 5000, 0)] ∧
    ∃ r, mutate scenario_instance scenario_chromosome low_rng = some r ∧
      ∃ mutated : Chromosome,
        mutate_loop scenario_instance scenario_chromosome low_rng = some (mutated, r.2) ∧
        mutated.length = scenario_chromosome.length ∧
        (∀ (i : Nat) (a : Gene), scenario_chromosome[i]? = some a →
          ∃ b : Gene, mutated[i]? = some b ∧
            MutatedGene scenario_instance
              (mutation_prob (mutate_stream low_rng scenario_chromosome i)).1
              (dist (mutation_prob (mutate_stream low_rng scenario_chromosome i)).2).1 a b) ∧
        r.2 = mutate_stream low_rng scenario_chromosome scenario_chromosome.length ∧
        r.1 = sort_descending mutated ∧ r.1.Perm mutated ∧ KeysSorted r.1 :=
  have hlen : scenario_instance.N ≤ scenario_instance.items.length := by decide
  have hvalid : ValidIndices scenario_instance scenario_chromosome := by
    unfold ValidIndices; decide
  have T := mutate_pass scenario_instance scenario_chromosome low_rng
  have ⟨r, hr⟩ := T.2.2 hlen hvalid
  ⟨⟨hlen, hvalid⟩, by decide!, by decide!, r, hr, T.1 r hr⟩

/-! ## Purity of the decoder -/

theorem vector_assign_eq (n : Nat) (x : Bool) (v : List Bool) :
    vector_assign n x v = List.replicate n x := by
  unfold vector_assign
  split
  · rename_i h
    rw [List.map_const', List.append_replicate_replicate]
    congr 1
    omega
  · rename_i h
    rw [List.map_const', List.length_take]
    congr 1
    omega

/-- The body of the loop writes the buffer and the two locals only, and what it
writes is what `decode_step` computes. -/
theorem decode_body_eq (m : DecodeMemory) (c : Gene) :
    decode_body m c =
      (decode_step m.globals
        { solution := m.solution, total_weight := m.total_weight,
          total_value := m.total_value } c).map fun s =>
        { m with solution := s.solution, total_weight := s.total_weight,
                 total_value := s.total_value } := by
  unfold decode_body decode_step
  simp only
  split
  · split
    · rfl
    · split
      · split
        · rfl
        · rfl
      · rfl
  · rfl

theorem decode_iterate_eq (n i : Nat) (m : DecodeMemory)
    (h : i + n ≤ m.chromosome.length) :
    decode_iterate n i m =
      (decode_loop m.globals
        { solution := m.solution, total_weight := m.total_weight,
          total_value := m.total_value } ((m.chromosome.drop i).take n)).map fun s =>
        { m with solution := s.solution, total_weight := s.total_weight,
                 total_value := s.total_value } := by
  induction n generalizing i m with
  | zero => simp [decode_iterate, decode_loop]
  | succ n ih =>
    have hi : i < m.chromosome.length := by omega
    rw [List.drop_eq_getElem_cons hi]
    simp only [decode_iterate, List.getElem?_eq_getElem hi, List.take_succ_cons, decode_loop,
      decode_body_eq]
    cases hstep : decode_step m.globals
        { solution := m.solution, total_weight := m.total_weight,
          total_value := m.total_value } m.chromosome[i] with
    | none => simp
    | some s =>
      simp only [Option.map_some']
      rw [ih (i + 1) _ (by show i + 1 + n ≤ m.chromosome.length; omega)]

/-- A call on the memory returns the memory it was given, up to the buffer and the
locals, which hold what `decode_loop` computes from the state that
`decode_chromosome` starts with. -/
theorem decode_call_eq (globals : Instance) (chromosome : Chromosome) (solution : List Bool) :
    decode_call globals chromosome solution =
      (decode_loop globals (decode_init globals) chromosome).map fun s =>
        { globals := globals, chromosome := chromosome, solution := s.solution,
          total_weight := s.total_weight, total_value := s.total_value } := by
  unfold decode_call
  rw [decode_iterate_eq _ _ _ (by simp [decode_enter])]
  simp only [decode_enter, vector_assign_eq, List.drop_zero, List.take_length, decode_init]

/-- C14. Decoder idempotence and purity. A call of `decode_chromosome` leaves the
globals `N`, `C`, `items` and the chromosome as they were; its outcome does not
depend on the content or the length of the buffer passed in; a second call on
the memory that the first call leaves (the buffer now filled) returns the same
memory, hence the same selection and the same `total_value`. The buffer and the
value of the call are those of the function `decode_chromosome` of the other
statements. -/
theorem decode_call_pure (globals : Instance) (chromosome : Chromosome)
    (buffer₁ buffer₂ : List Bool) :
    (∀ m, decode_call globals chromosome buffer₁ = some m →
      m.globals = globals ∧ m.chromosome = chromosome) ∧
    decode_call globals chromosome buffer₁ = decode_call globals chromosome buffer₂ ∧
    (∀ m, decode_call globals chromosome buffer₁ = some m →
      decode_call m.globals m.chromosome m.solution = some m) ∧
    (decode_call globals chromosome buffer₁).map (fun m => (m.solution, m.total_value)) =
      decode_chromosome globals chromosome buffer₂ := by
  refine ⟨?_, ?_, ?_, ?_⟩
  · intro m h
    rw [decode_call_eq] at h
    cases hl : decode_loop globals (decode_init globals) chromosome with
    | none => simp [hl] at h
    | some s =>
      simp only [hl, Option.map_some', Option.some.injEq] at h
      rw [← h]
      exact ⟨rfl, rfl⟩
  · rw [decode_call_eq, decode_call_eq]
  · intro m h
    have h' := h
    rw [decode_call_eq] at h
    cases hl : decode_loop globals (decode_init globals) chromosome with
    | none => simp [hl] at h
    | some s =>
      simp only [hl, Option.map_some', Option.some.injEq] at h
      have hg : m.globals = globals := by rw [← h]
      have hc : m.chromosome = chromosome := by rw [← h]
      rw [hg, hc, decode_call_eq, ← decode_call_eq globals chromosome buffer₁]
      exact h'
  · rw [decode_call_eq]
    simp only [decode_chromosome, Option.map_map]
    rfl

/-- C14 (witness). Two calls on the scenario, with an empty buffer and with a
buffer of four flags, and a call on the memory that the first call leaves. -/
theorem decode_call_pure_witness :
    ∃ m, decode_call scenario_instance scenario_chromosome [] = some m ∧
      (m.solution, m.total_value) = ([false, true, true], 70) ∧
      m.globals = scenario_instance ∧ m.chromosome = scenario_chromosome ∧
      decode_call scenario_instance scenario_chromosome [true, true, true, true] = some m ∧
      decode_call m.globals m.chromosome m.solution = some m :=
  have T := decode_call_pure scenario_instance scenario_chromosome []
    [true, true, true, true]
  have h : (decode_call scenario_instance scenario_chromosome []).isSome = true := by decide
  have hm := (Option.some_get h).symm
  ⟨_, hm,
    by
      have h4 := T.2.2.2
      rw [hm] at h4
      have hd : decode_chromosome scenario_instance scenario_chromosome
          [true, true, true, true] = some ([false, true, true], 70) := by decide
      rw [hd] at h4
      exact Option.some.inj h4,
    (T.1 _ hm).1, (T.1 _ hm).2, by rw [← T.2.1]; exact hm, T.2.2.1 _ hm⟩

end Brkga
